import Mathlib

/-!
Verification of the North Star hybrid memory retrieval core

This file gives a shallow embedding, in Lean 4, of the retrieval core of the
North Star VS Code extension (knowledge graph, vector store, token budget,
entity extraction, hybrid retriever), translated from the TypeScript sources:

* `src/core/tokenBudget.ts`            (`TokenBudget`)
* `src/memory/layers/sessionGraph.ts`  (two generations of `SessionGraph`:
  an in-memory `Map`/array one with a DFS `traverse`, and a SQLite-backed
  one with a BFS `traverse`)
* `src/memory/layers/vectorStore.ts`   (SQLite-backed `VectorStore`)
* `src/memory/retrieval/hybridRetriever.ts` (`HybridRetriever`)
* `src/persistence/sessionRecovery.ts` (`EntityExtractor`)
* `src/storage/sqliteManager.ts`       (table schemas: `graph_nodes` has
  `PRIMARY KEY (id)`, `graph_edges` has `PRIMARY KEY (source, target, type)`,
  `vectors` has `PRIMARY KEY (id)`)

Modelling conventions:

* JavaScript numbers are modelled as `ℚ` (exact arithmetic).  Where IEEE-754
  non-finite results matter (`cosineSimilarity` can divide by zero) the result
  type `FVal` records NaN and the infinities explicitly; for a finite value
  `dot / (sqrt na * sqrt nb)` we record the exact pair `(dot, na * nb)` since
  `sqrt na * sqrt nb = sqrt (na * nb)` over the reals (float rounding is
  abstracted away, as is usual at this granularity).
* JavaScript `Map` is an insertion-ordered association list: setting an
  existing key updates the value in place (keeping the position), setting a
  fresh key appends.
* SQLite `INSERT OR REPLACE` deletes the conflicting row and appends a fresh
  one (fresh rowid); a `SELECT` without `ORDER BY` enumerates rows in rowid
  order, which this model renders as list order.
* `Array.prototype.sort` (ES2019+) is stable; for a consistent comparator the
  result is the unique stable order, here realised by an insertion sort whose
  Boolean test `le a b` means "comparator(a,b) ≤ 0, or evaluated to NaN"
  (a comparator returning NaN is treated as 0 by the ECMAScript spec).
* `Date.now()` timestamps are modelled as `ℕ`; the random id suffixes of
  `generateId` are replaced by a deterministic counter (the claims under
  study only mention node counts, types and contents).
* `metadata` fields are dropped: no claim mentions them and no modelled code
  path reads them.
-/

set_option maxRecDepth 10000

namespace NorthStar

/-! ## Data model (`sessionGraph.ts`) -/

/-- `NodeType` from `sessionGraph.ts`. -/
inductive NodeType where
  | Intent | Decision | CodeArtifact | Error | Solution | Preference
deriving DecidableEq, Repr

/-- `EdgeType` from `sessionGraph.ts`. -/
inductive EdgeType where
  | LED_TO | RESOLVED_BY | IMPLEMENTED_IN | CONFLICTS_WITH | DEPENDS_ON
deriving DecidableEq, Repr

/-- `GraphNode` (TS fields `id`, `type`, `content`, `createdAt`). -/
structure GraphNode where
  id : String
  type : NodeType
  content : String
  createdAt : ℕ
deriving DecidableEq, Repr

/-- `GraphEdge` (TS fields `from`, `to`, `type`, `weight`); `from` is a Lean
keyword, so the endpoints are named `source`/`target` as in the SQLite table. -/
structure GraphEdge where
  source : String
  target : String
  type : EdgeType
  weight : Option ℚ := none
deriving DecidableEq, Repr

/-- `node.type.toUpperCase()` as used by `hybridRetriever.ts`. -/
def NodeType.upper : NodeType → String
  | .Intent => "INTENT"
  | .Decision => "DECISION"
  | .CodeArtifact => "CODEARTIFACT"
  | .Error => "ERROR"
  | .Solution => "SOLUTION"
  | .Preference => "PREFERENCE"

/-! ## JavaScript `Map` as an insertion-ordered association list -/

/-- Lookup in an association list (first binding wins, as in a `Map` whose
keys are unique). -/
def alookup {α : Type} (m : List (String × α)) (k : String) : Option α :=
  match m with
  | [] => none
  | (k₀, v₀) :: m₀ => if k₀ = k then some v₀ else alookup m₀ k

/-- `Map.prototype.set`: update in place if the key is present (keeping its
position), append otherwise. -/
def mapSet {α : Type} (m : List (String × α)) (k : String) (v : α) :
    List (String × α) :=
  match m with
  | [] => [(k, v)]
  | (k₀, v₀) :: m₀ =>
      if k₀ = k then (k, v) :: m₀ else (k₀, v₀) :: mapSet m₀ k v

/-- Insertion step of a stable sort with Boolean test `le x y` ("x may stay
before y"): `x` is placed before the first element it may precede.  With the
tests used here (`le x y` true on ties) this is the unique stable order of a
consistent JS comparator (`Array.prototype.sort` is stable since ES2019). -/
def insBy {α : Type} (le : α → α → Bool) (x : α) : List α → List α
  | [] => [x]
  | y :: l => if le x y then x :: y :: l else y :: insBy le x l

/-- Stable sort by `le` (JS `Array.prototype.sort` with a consistent
comparator). -/
def sortBy {α : Type} (le : α → α → Bool) : List α → List α
  | [] => []
  | x :: l => insBy le x (sortBy le l)

/-! ## In-memory `SessionGraph` (first generation, `sessionGraph.ts`) -/

/-- State of the in-memory `SessionGraph`: `nodes` is a JS `Map` keyed by node
id, `edges` a plain array. -/
structure GraphIM where
  nodes : List (String × GraphNode)
  edges : List GraphEdge
deriving DecidableEq, Repr

def GraphIM.empty : GraphIM := ⟨[], []⟩

/-- `addNode(node) { this.nodes.set(node.id, node); }` -/
def GraphIM.addNode (g : GraphIM) (n : GraphNode) : GraphIM :=
  { g with nodes := mapSet g.nodes n.id n }

/-- `addEdge(edge) { this.edges.push(edge); }` — note: a plain push, no
de-duplication on `(from, to, type)`. -/
def GraphIM.addEdge (g : GraphIM) (e : GraphEdge) : GraphIM :=
  { g with edges := g.edges ++ [e] }

/-- The node values of the `Map`, in insertion order
(`Array.from(this.nodes.values())`). -/
def GraphIM.nodeValues (g : GraphIM) : List GraphNode := g.nodes.map (·.2)

/-- `getNodesByType`: `Array.from(this.nodes.values()).filter(n => n.type === type)` —
insertion order, NOT most-recently-created first. -/
def GraphIM.getNodesByType (g : GraphIM) (t : NodeType) : List GraphNode :=
  g.nodeValues.filter (fun n => n.type = t)

def GraphIM.getIntents (g : GraphIM) : List GraphNode :=
  g.getNodesByType .Intent

def GraphIM.getDecisions (g : GraphIM) : List GraphNode :=
  g.getNodesByType .Decision

/-- Whether a node passes the optional type filter
(`!nodeTypes || nodeTypes.includes(node.type)`). -/
def typeOk (types : Option (List NodeType)) (t : NodeType) : Bool :=
  match types with
  | none => true
  | some ts => ts.contains t

/-- The ids adjacent to `nodeId` through the undirected reading of the edge
array, in edge-array order
(`this.edges.filter(e => e.from === nodeId || e.to === nodeId)` followed by
`e.from === nodeId ? e.to : e.from`). -/
def adjacentIds (edges : List GraphEdge) (nodeId : String) : List String :=
  (edges.filter (fun e => e.source = nodeId ∨ e.target = nodeId)).map
    (fun e => if e.source = nodeId then e.target else e.source)

/-- The recursive `dfs` of the in-memory `traverse`.  The TS recursion is
`dfs(nodeId, currentDepth)` guarded by `currentDepth > depth`; here `fuel`
stands for `depth + 1 - currentDepth`, so `fuel = 0` is exactly the
`currentDepth > depth` guard and children run at `fuel - 1`.  The state is
`(visited, result)`; `visited` is kept in visit order. -/
def dfsAux (g : GraphIM) (types : Option (List NodeType)) :
    ℕ → String → List String × List GraphNode → List String × List GraphNode
  | 0, _, st => st
  | fuel + 1, nodeId, (visited, result) =>
      if nodeId ∈ visited then (visited, result)
      else
        (adjacentIds g.edges nodeId).foldl
          (fun st next => dfsAux g types fuel next st)
          (visited ++ [nodeId],
           (match alookup g.nodes nodeId with
            | some n => if typeOk types n.type then result ++ [n] else result
            | none => result))

/-- `traverse(startId, depth, nodeTypes?)` of the in-memory `SessionGraph`
(DFS with a global visited set). -/
def GraphIM.traverse (g : GraphIM) (startId : String) (depth : ℕ)
    (types : Option (List NodeType) := none) : List GraphNode :=
  (dfsAux g types (depth + 1) startId ([], [])).2

/-! ## `TokenBudget` (`tokenBudget.ts`) -/

/-- `countTokens(text) { return Math.ceil(text.length / 4); }` -/
def countTokens (text : String) : ℕ := (text.length + 3) / 4

/-- The loop body of `fitToTokenBudget`: walk the items keeping a `remaining`
budget; an item is pushed iff its token count fits in `remaining` (there is
no `break` — an overflowing item is skipped and the loop continues). -/
def fitAux (remaining : ℚ) : List String → List String
  | [] => []
  | item :: items =>
      if (countTokens item : ℚ) ≤ remaining then
        item :: fitAux (remaining - countTokens item) items
      else
        fitAux remaining items

/-- `fitToTokenBudget(items, budget)` from `tokenBudget.ts`. -/
def fitToTokenBudget (items : List String) (budget : ℚ) : List String :=
  fitAux budget items

/-! ## SQLite-backed `SessionGraph` (second generation, `sessionGraph.ts`)

The tables (from `sqliteManager.ts`): `graph_nodes` with `PRIMARY KEY (id)`
and `graph_edges` with `PRIMARY KEY (source, target, type)`.  Rows are kept
in rowid order; `INSERT OR REPLACE` deletes a conflicting row and appends. -/

structure GraphSQL where
  nodes : List GraphNode
  edges : List GraphEdge
deriving DecidableEq, Repr

def GraphSQL.empty : GraphSQL := ⟨[], []⟩

/-- `INSERT OR REPLACE INTO graph_nodes` (conflict key: `id`). -/
def GraphSQL.addNode (g : GraphSQL) (n : GraphNode) : GraphSQL :=
  { g with nodes := (g.nodes.filter (fun m => ¬ m.id = n.id)) ++ [n] }

/-- `INSERT OR REPLACE INTO graph_edges` (conflict key: `(source, target, type)`). -/
def GraphSQL.addEdge (g : GraphSQL) (e : GraphEdge) : GraphSQL :=
  { g with edges :=
      (g.edges.filter
        (fun f => ¬ (f.source = e.source ∧ f.target = e.target ∧ f.type = e.type)))
      ++ [e] }

/-- `SELECT * FROM graph_nodes WHERE id = ?` (`id` is the primary key, so the
first hit is the row). -/
def GraphSQL.findNode (g : GraphSQL) (id : String) : Option GraphNode :=
  g.nodes.find? (fun n => n.id = id)

/-- One step of the BFS `traverse` loop of the SQLite `SessionGraph`, acting on
the state `(visited, result, queue)`; `visited` is kept in visit order.  `fuel`
bounds the number of loop iterations (each iteration dequeues one entry); the
faithful amount of fuel is provided by `GraphSQL.traverse` below. -/
def bfsAux (g : GraphSQL) (depth : ℕ) (types : Option (List NodeType)) :
    ℕ → List String × List GraphNode × List (String × ℕ) →
    List String × List GraphNode
  | 0, (visited, result, _) => (visited, result)
  | _ + 1, (visited, result, []) => (visited, result)
  | fuel + 1, (visited, result, (id, d) :: queue) =>
      if d > depth ∨ id ∈ visited then
        bfsAux g depth types fuel (visited, result, queue)
      else
        bfsAux g depth types fuel
          (visited ++ [id],
           (match g.findNode id with
            | some n => if typeOk types n.type then result ++ [n] else result
            | none => result),
           (if d < depth then
              queue ++ ((adjacentIds g.edges id).filter
                (fun x => x ∉ visited ++ [id])).map (fun x => (x, d + 1))
            else queue))

/-- The ids mentioned by the graph: the start id and every edge endpoint.
Every id that can ever enter the BFS queue is in this list. -/
def idUniverse (g : GraphSQL) (startId : String) : List String :=
  startId :: g.edges.foldr (fun e acc => e.source :: e.target :: acc) []

/-- Enough fuel for the BFS loop to run to completion (proved in
`bfsAux_fuel_sufficient` below): every dequeue either discards an entry or
visits a fresh id of `idUniverse`, and a visit enqueues at most
`edges.length` new entries. -/
def bfsFuel (g : GraphSQL) (startId : String) : ℕ :=
  1 + (1 + (idUniverse g startId).length) * (1 + g.edges.length)

/-- `traverse(startId, depth, nodeTypes?)` of the SQLite `SessionGraph`
(BFS over the undirected edge relation, visited-set guard). -/
def GraphSQL.traverse (g : GraphSQL) (startId : String) (depth : ℕ)
    (types : Option (List NodeType) := none) : List GraphNode :=
  (bfsAux g depth types (bfsFuel g startId) ([], [], [(startId, 0)])).2

/-- `SELECT * FROM graph_nodes WHERE type = ? ORDER BY created_at DESC`:
most-recently-created first (stable on ties, which SQLite leaves
unspecified; this model keeps rowid order among equal timestamps). -/
def GraphSQL.getNodesByType (g : GraphSQL) (t : NodeType) : List GraphNode :=
  sortBy (fun a b => b.createdAt ≤ a.createdAt)
    (g.nodes.filter (fun n => n.type = t))

/-! ## Graph distance (specification side)

The spec's "traversal distance"/"shortest-path distance" over the undirected
adjacency implied by the edge array.  `ball edges s k` lists every id whose
distance from `s` is at most `k` (with repetitions; only membership is used). -/

def ball (edges : List GraphEdge) (s : String) : ℕ → List String
  | 0 => [s]
  | k + 1 =>
      ball edges s k ++ (ball edges s k).flatMap (fun x => adjacentIds edges x)

/-! ## `VectorStore` (`vectorStore.ts`) and IEEE-flavoured similarity values -/

/-- The result of a JavaScript floating-point division `dot / (sqrt na * sqrt nb)`
over exact operands: `fin dot prodSq` stands for the finite real
`dot / sqrt prodSq` with `prodSq = na * nb > 0`; a zero denominator yields
NaN (0/0) or a signed infinity. -/
inductive FVal where
  | nan
  | pinf
  | ninf
  | fin (num : ℚ) (prodSq : ℚ)
deriving DecidableEq, Repr

/-- `dotProduct` of the `cosineSimilarity` loop, over the length of the first
argument (out-of-range access on `b` is handled by `cosineFVal`). -/
def dotP : List ℚ → List ℚ → ℚ
  | [], _ => 0
  | _ :: _, [] => 0
  | a :: as', b :: bs => a * b + dotP as' bs

/-- `normA`-style sum of squares. -/
def sumSq : List ℚ → ℚ
  | [] => 0
  | a :: as' => a * a + sumSq as'

/-- `cosineSimilarity(a, b)` from `vectorStore.ts`:
`dotProduct / (Math.sqrt(normA) * Math.sqrt(normB))`, with the loop running
over `a.length`.  There is no special case for zero vectors: a zero
denominator yields NaN (the numerator is then forced to zero as well) or a
signed infinity.  If `a` is longer than `b`, the loop reads `b[i]` out of
range (`undefined`), poisoning the accumulators to NaN. -/
def cosineFVal (a b : List ℚ) : FVal :=
  if b.length < a.length then .nan
  else if sumSq a * sumSq (b.take a.length) = 0 then
    if dotP a b = 0 then .nan
    else if dotP a b > 0 then .pinf
    else .ninf
  else .fin (dotP a b) (sumSq a * sumSq (b.take a.length))

/-- `n1 / sqrt p1 ≤ n2 / sqrt p2` for `p1, p2 > 0`, decided in `ℚ` by sign
analysis and cross-multiplied squares. -/
def sqrtQuotLe (n1 p1 n2 p2 : ℚ) : Bool :=
  if n1 ≤ 0 then
    if 0 ≤ n2 then true else n2 * n2 * p1 ≤ n1 * n1 * p2
  else
    if n2 ≤ 0 then false else n1 * n1 * p2 ≤ n2 * n2 * p1

/-- The Boolean "keep `x` before `y`" test induced by the JS comparator
`(a, b) => b.score - a.score` on `FVal` scores: true iff the comparator value
is ≤ 0 or NaN (ECMAScript treats a NaN comparator result as 0). -/
def fvalCmpLe (x y : FVal) : Bool :=
  match x, y with
  | .nan, _ => true
  | _, .nan => true
  | .pinf, .pinf => true          -- inf - inf is NaN
  | .pinf, _ => true              -- y - pinf = -inf ≤ 0
  | _, .pinf => false             -- pinf - x = +inf > 0
  | .ninf, .ninf => true          -- NaN
  | .ninf, _ => false             -- y - ninf = +inf > 0
  | _, .ninf => true              -- ninf - x = -inf ≤ 0
  | .fin n1 p1, .fin n2 p2 => sqrtQuotLe n2 p2 n1 p1

/-- A stored row of the `vectors` table (`id` is the primary key; `metadata`
is dropped, see the header). -/
structure VRow where
  id : String
  content : String
  embedding : List ℚ
deriving DecidableEq, Repr

/-- The injected embedding provider (`LocalEmbeddingModel.generate`): may fail.
The spec names the failure `EmbeddingUnavailable`. -/
inductive EmbeddingUnavailable where
  | unavailable
deriving DecidableEq, Repr

/-- A provider embeds a text or fails. -/
def Provider : Type := String → Except EmbeddingUnavailable (List ℚ)

/-- `generateEmbedding(text)` from `vectorStore.ts`: call the model, and on
ANY failure catch the error and fall back to `new Array(384).fill(0)` —
the error is never rethrown. -/
def generateEmbedding (p : Provider) (text : String) : List ℚ :=
  match p text with
  | .ok v => v
  | .error _ => List.replicate 384 0

/-- `VectorStore.add(id, content)`: embed, then
`INSERT OR REPLACE INTO vectors` (conflict key: `id`). -/
def vadd (p : Provider) (rows : List VRow) (id content : String) : List VRow :=
  (rows.filter (fun r => ¬ r.id = id)) ++ [⟨id, content, generateEmbedding p content⟩]

/-- A scored row during `search`. -/
structure Scored where
  entry : VRow
  score : FVal
deriving DecidableEq, Repr

/-- `VectorStore.search(query, k)`: embed the query, score every row by cosine
similarity, sort by descending score (stable), return the top `k` rows. -/
def vsearch (p : Provider) (rows : List VRow) (query : String) (k : ℕ) :
    List VRow :=
  ((sortBy (fun a b => fvalCmpLe a.score b.score)
    (rows.map (fun r =>
      Scored.mk r (cosineFVal (generateEmbedding p query) r.embedding)))).take
    k).map (·.entry)

/-! ## `HybridRetriever` (`hybridRetriever.ts`) -/

/-- `source: 'graph' | 'vector'`. -/
inductive RSource where
  | graph | vector
deriving DecidableEq, Repr

/-- `RetrievalResult`. -/
structure RetrievalResult where
  content : String
  source : RSource
  score : ℚ
deriving DecidableEq, Repr

/-- The intent part of `graphSearch`: each intent node, in `getIntents` order,
as `[INTENT] content` scored `1.0 - idx * 0.1`. -/
def intentResults (intents : List GraphNode) : List RetrievalResult :=
  intents.mapIdx (fun idx n =>
    ⟨"[INTENT] " ++ n.content, .graph, 1 - idx * (1/10)⟩)

/-- The traversal part of `graphSearch`: the nodes connected to the chosen
intent, as `[TYPE] content` scored `0.8 - idx * 0.05`. -/
def connectedResults (connected : List GraphNode) : List RetrievalResult :=
  connected.mapIdx (fun idx n =>
    ⟨"[" ++ n.type.upper ++ "] " ++ n.content, .graph, 8/10 - idx * (5/100)⟩)

/-- `graphSearch` of `HybridRetriever` over the in-memory graph: all intents
scored by position, then — if any intent exists — a depth-2 traversal from
`intents[intents.length - 1]` restricted to Decision/CodeArtifact/Solution.
(`getDecisions()` is also called in the source but its result is unused.) -/
def graphSearch (g : GraphIM) : List RetrievalResult :=
  let intents := g.getIntents
  let base := intentResults intents
  match intents.getLast? with
  | none => base
  | some latest =>
      base ++ connectedResults
        (g.traverse latest.id 2 (some [.Decision, .CodeArtifact, .Solution]))

/-- `vectorSearch` of `HybridRetriever`: `search(query, 10)` ranked
`1.0 - idx * 0.1`, tagged `vector`. -/
def vectorSearchResults (p : Provider) (rows : List VRow) (query : String) :
    List RetrievalResult :=
  (vsearch p rows query 10).mapIdx (fun idx e =>
    ⟨e.content, .vector, 1 - idx * (1/10)⟩)

/-- An entry of the `fusedScores` map: the first `RetrievalResult` object
stored under the key plus the running RRF score. -/
structure Fused where
  result : RetrievalResult
  score : ℚ
deriving DecidableEq, Repr

/-- The graph pass of `reciprocalRankFusion`:
`fusedScores.set(result.content, { result, score: 1/(60 + rank + 1) })` —
note `set` OVERWRITES an existing key (keeping its position), so a duplicate
content inside the graph list keeps only its last contribution. -/
def graphPass (m : List (String × Fused)) :
    List RetrievalResult → ℕ → List (String × Fused)
  | [], _ => m
  | r :: rs, rank =>
      graphPass (mapSet m r.content ⟨r, 1 / (60 + (rank : ℚ) + 1)⟩) rs (rank + 1)

/-- One vector step: add to the existing score if the key is present,
otherwise insert. -/
def bumpKey (m : List (String × Fused)) (k : String) (r : RetrievalResult)
    (inc : ℚ) : List (String × Fused) :=
  match alookup m k with
  | some _ =>
      m.map (fun p => if p.1 = k then (p.1, ⟨p.2.result, p.2.score + inc⟩) else p)
  | none => m ++ [(k, ⟨r, inc⟩)]

/-- The vector pass of `reciprocalRankFusion`: sums `1/(60 + rank + 1)` onto
an existing key, inserts a fresh one. -/
def vectorPass (m : List (String × Fused)) :
    List RetrievalResult → ℕ → List (String × Fused)
  | [], _ => m
  | r :: rs, rank =>
      vectorPass (bumpKey m r.content r (1 / (60 + (rank : ℚ) + 1))) rs (rank + 1)

/-- The comparator-induced test for `.sort((a, b) => b.score - a.score)` on
rational fused scores. -/
def fusedLe (a b : Fused) : Bool := b.score ≤ a.score

/-- `reciprocalRankFusion(graphResults, vectorResults)`. -/
def reciprocalRankFusion (g v : List RetrievalResult) : List RetrievalResult :=
  ((sortBy fusedLe ((vectorPass (graphPass [] g 0) v 0).map (·.2))).map (·.result))

/-- The loop of `selectWithinBudget`: same skip-and-continue greedy walk as
`fitToTokenBudget`, collecting contents. -/
def selectAux (remaining : ℚ) : List RetrievalResult → List String
  | [] => []
  | r :: rs =>
      if (countTokens r.content : ℚ) ≤ remaining then
        r.content :: selectAux (remaining - countTokens r.content) rs
      else
        selectAux remaining rs

/-- `selectWithinBudget(results, budget)`: greedy selection then
`selected.join('\n\n')`. -/
def selectWithinBudget (results : List RetrievalResult) (budget : ℚ) : String :=
  String.intercalate "\n\n" (selectAux budget results)

/-- The stores `HybridRetriever` reads. -/
structure Stores where
  graph : GraphIM
  vectors : List VRow
deriving DecidableEq, Repr

/-- `HybridRetriever.retrieve(query, tokenBudget)`: graph search, vector
search, reciprocal rank fusion, token-aware selection. -/
def retrieve (p : Provider) (st : Stores) (query : String) (budget : ℚ) :
    String :=
  selectWithinBudget
    (reciprocalRankFusion (graphSearch st.graph)
      (vectorSearchResults p st.vectors query))
    budget

/-! ## `EntityExtractor` (`sessionRecovery.ts`)

The `ENTITY_PATTERNS` are JavaScript regular expressions run with flags `gi`
(`content.matchAll(new RegExp(pattern, 'gi'))`).  The constructs they use —
case-insensitive literals, alternations of literals, `d?`/`:?`, `\s*`, `.+`
and numbered capture groups — are embedded below as a small backtracking
matcher with JavaScript semantics: leftmost match, left-biased alternation,
greedy quantifiers, non-overlapping repeated matches. -/

/-- The regular-expression constructs used by `ENTITY_PATTERNS`. -/
inductive Rx where
  | lit (s : String)
  | alt (a b : Rx)
  | opt (r : Rx)
  | wsStar
  | dotPlus
  | grp (n : ℕ) (r : Rx)
  | seq (a b : Rx)
deriving Repr

/-- Case-insensitive character comparison (the `i` flag). -/
def foldCI (c d : Char) : Bool := c.toLower = d.toLower

/-- Consume a literal (case-insensitively); return the rest on success. -/
def litMatch : List Char → List Char → Option (List Char)
  | [], cs => some cs
  | _ :: _, [] => none
  | p :: ps, c :: cs => if foldCI p c then litMatch ps cs else none

/-- JavaScript `\s` (restricted to the ASCII whitespace the corpus uses). -/
def isWs (c : Char) : Bool := c = ' ' ∨ c = '\t' ∨ c = '\n' ∨ c = '\r'

/-- JavaScript `.` (no `s` flag): anything but a line terminator. -/
def isDot (c : Char) : Bool := ¬ (c = '\n' ∨ c = '\r')

/-- Length of the maximal prefix satisfying `p`. -/
def runLen (p : Char → Bool) : List Char → ℕ
  | [] => 0
  | c :: cs => if p c then runLen p cs + 1 else 0

/-- Matches (rest of input, captures so far). -/
def MRes : Type := List Char × List (ℕ × String)

/-- Greedy backtracking over a run: try consuming `i, i-1, …, 1, 0`
characters. -/
def tryCounts (cs : List Char) (k : List Char → Option MRes) : ℕ → Option MRes
  | 0 => k cs
  | i + 1 => (k (cs.drop (i + 1))).orElse (fun _ => tryCounts cs k i)

/-- Greedy backtracking over a run, at least one character
(`i, i-1, …, 1`). -/
def tryCountsPos (cs : List Char) (k : List Char → Option MRes) : ℕ → Option MRes
  | 0 => none
  | i + 1 => (k (cs.drop (i + 1))).orElse (fun _ => tryCountsPos cs k i)

/-- The backtracking matcher, continuation-passing: `mrun r cs caps k` tries
to match `r` at the start of `cs` and passes the rest and the captures to
`k`, backtracking on failure.  Matching only ever consumes from the front,
so a group's text is recovered from the length difference. -/
def mrun : Rx → List Char → List (ℕ × String) →
    (List Char → List (ℕ × String) → Option MRes) → Option MRes
  | .lit s, cs, caps, k =>
      match litMatch s.toList cs with
      | some rest => k rest caps
      | none => none
  | .alt a b, cs, caps, k =>
      (mrun a cs caps k).orElse (fun _ => mrun b cs caps k)
  | .opt r, cs, caps, k => (mrun r cs caps k).orElse (fun _ => k cs caps)
  | .wsStar, cs, caps, k =>
      tryCounts cs (fun rest => k rest caps) (runLen isWs cs)
  | .dotPlus, cs, caps, k =>
      tryCountsPos cs (fun rest => k rest caps) (runLen isDot cs)
  | .grp n r, cs, caps, k =>
      mrun r cs caps (fun rest caps2 =>
        k rest ((n, String.mk (cs.take (cs.length - rest.length))) :: caps2))
  | .seq a b, cs, caps, k =>
      mrun a cs caps (fun rest caps2 => mrun b rest caps2 k)

/-- Try a match anchored at the start of `cs`; on success return
`(match[0], captures, rest after the match)`. -/
def matchAt (r : Rx) (cs : List Char) :
    Option (String × List (ℕ × String) × List Char) :=
  match mrun r cs [] (fun rest caps => some (rest, caps)) with
  | some (rest, caps) =>
      some (String.mk (cs.take (cs.length - rest.length)), caps, rest)
  | none => none

/-- Leftmost match: try each successive start position. -/
def searchFrom (r : Rx) : List Char → Option (String × List (ℕ × String) × List Char)
  | [] => matchAt r []
  | c :: cs2 =>
      match matchAt r (c :: cs2) with
      | some m => some m
      | none => searchFrom r cs2

/-- `matchAll` (flag `g`): repeated non-overlapping leftmost matches; an
empty match advances by one position (ECMAScript `lastIndex` bump).  The
fuel (`length + 1`) is enough because every iteration strictly shortens the
remaining input. -/
def matchAllAux (r : Rx) : ℕ → List Char → List (String × List (ℕ × String))
  | 0, _ => []
  | fuel + 1, cs =>
      match searchFrom r cs with
      | none => []
      | some (m0, caps, rest) =>
          (m0, caps) ::
            matchAllAux r fuel (if m0.isEmpty then rest.drop 1 else rest)

def matchAll (r : Rx) (s : String) : List (String × List (ℕ × String)) :=
  matchAllAux r (s.toList.length + 1) s.toList

/-- `match[n]`: the most recent capture of group `n`, if any. -/
def capLookup (caps : List (ℕ × String)) (n : ℕ) : Option String :=
  (caps.find? (fun p => p.1 = n)).map (·.2)

/-- `undefined`/empty-string coalescing of JavaScript `||`. -/
def orNonempty (o : Option String) : Option String :=
  match o with
  | some s => if s.isEmpty then none else some s
  | none => none

/-- `const entityContent = match[2] || match[1] || match[0]` — the SECOND
capture group is preferred, then the first, then the full match. -/
def entityContent (m0 : String) (caps : List (ℕ × String)) : String :=
  match orNonempty (capLookup caps 2) with
  | some s => s
  | none =>
      match orNonempty (capLookup caps 1) with
      | some s => s
      | none => m0

/-- JavaScript `String.prototype.trim` (whitespace from both ends),
implemented over the character list. -/
def jsTrim (s : String) : String :=
  String.mk (((s.toList.dropWhile isWs).reverse.dropWhile isWs).reverse)

/-- Left-biased alternation of case-insensitive literals. -/
def altLits : List String → Rx
  | [] => .lit ""
  | [s] => .lit s
  | s :: ss => .alt (.lit s) (altLits ss)

def verbAlts : Rx := altLits ["build", "create", "make", "implement", "develop"]

def extAlts : Rx :=
  altLits ["ts", "js", "py", "java", "go", "rs", "cpp", "c", "h", "css",
    "html", "json", "yaml", "yml"]

/-- `(.+\.(ts|js|…))` — the shared body of the CodeArtifact patterns. -/
def artifactBody : Rx :=
  .grp 1 (.seq .dotPlus (.seq (.lit ".") (.grp 2 extAlts)))

/-- `X:?\s*(.+)` — the shared tail of the Error/Solution keyword patterns. -/
def keywordTail (kw : String) : Rx :=
  .seq (.lit kw) (.seq (.opt (.lit ":")) (.seq .wsStar (.grp 1 .dotPlus)))

/-- `ENTITY_PATTERNS` from `sessionRecovery.ts`, in source order. -/
def ENTITY_PATTERNS : List (NodeType × List Rx) :=
  [ (.Intent,
      [ .seq (.lit "i want to ")
          (.seq (.grp 1 verbAlts) (.seq (.lit " ") (.grp 2 .dotPlus))),
        .seq (.lit "let\x27s ")
          (.seq (.grp 1 verbAlts) (.seq (.lit " ") (.grp 2 .dotPlus))),
        .seq (.lit "goal is to ") (.grp 1 .dotPlus),
        .seq (.lit "trying to ") (.grp 1 .dotPlus),
        .seq (.lit "need to ") (.grp 1 .dotPlus) ]),
    (.Decision,
      [ .seq (.lit "let\x27s use ") (.grp 1 .dotPlus),
        .seq (.lit "we")
          (.seq (.grp 1 (altLits ["\x27ll", " will", " should"]))
            (.seq (.lit " use ") (.grp 2 .dotPlus))),
        .seq (.lit "going with ") (.grp 1 .dotPlus),
        .seq (.lit "decided on ") (.grp 1 .dotPlus) ]),
    (.CodeArtifact,
      [ .seq (.lit "create") (.seq (.opt (.lit "d")) (.seq (.lit " ") artifactBody)),
        .seq (.lit "file ") artifactBody,
        .seq (.lit "in ") artifactBody ]),
    (.Error,
      [ keywordTail "error",
        keywordTail "exception",
        keywordTail "failed",
        keywordTail "typeerror",
        keywordTail "referenceerror" ]),
    (.Solution,
      [ .seq (.lit "fixed by ") (.grp 1 .dotPlus),
        .seq (.lit "solved by ") (.grp 1 .dotPlus),
        .seq (.lit "the fix is ") (.grp 1 .dotPlus),
        keywordTail "solution" ]),
    (.Preference,
      [ .seq (.lit "prefer ") (.grp 1 .dotPlus),
        .seq (.lit "like ") (.seq (.grp 1 .dotPlus) (.lit " better")),
        .seq (.lit "always use ") (.grp 1 .dotPlus),
        .seq (.lit "convention is ") (.grp 1 .dotPlus) ]) ]

def NodeType.lower : NodeType → String
  | .Intent => "intent"
  | .Decision => "decision"
  | .CodeArtifact => "codeartifact"
  | .Error => "error"
  | .Solution => "solution"
  | .Preference => "preference"

/-- `extractEntities(content)`: for each rule and each pattern, every match
contributes a node whose content is `(match[2] || match[1] || match[0]).trim()`;
every node is added to the graph.  `generateId`'s `Date.now()`/random suffix
is replaced by the timestamp parameter and a per-call counter, and every node
of the call is stamped `createdAt := ts` (the claims under study only look at
the count, type and content of the produced nodes). -/
def extractEntities (g : GraphIM) (ts : ℕ) (content : String) :
    GraphIM × List GraphNode :=
  let pieces :=
    ENTITY_PATTERNS.flatMap (fun tp =>
      tp.2.flatMap (fun rx =>
        (matchAll rx content).map (fun mc =>
          (tp.1, jsTrim (entityContent mc.1 mc.2)))))
  let nodes := pieces.mapIdx (fun i tc =>
    GraphNode.mk (tc.1.lower ++ "_" ++ toString ts ++ "_" ++ toString i)
      tc.1 tc.2 ts)
  (nodes.foldl GraphIM.addNode g, nodes)

/-! ## Specification-side definitions

These definitions phrase, in closed form, what the fused RRF map and the
traversals compute; the theorems below relate them to the translated code. -/

/-- The contribution the GRAPH pass leaves for content `c` in a result list:
the last occurrence wins (because `Map.set` overwrites).  `d` is the RRF
denominator of the head (`60 + rank + 1`). -/
def gLastContrib (c : String) : List RetrievalResult → ℚ → Option (RetrievalResult × ℚ)
  | [], _ => none
  | r :: rs, d =>
      match gLastContrib c rs (d + 1) with
      | some x => some x
      | none => if r.content = c then some (r, 1 / d) else none

/-- The summed VECTOR-pass contribution for content `c` (every occurrence
counts).  `d` is the RRF denominator of the head. -/
def vSumContrib (c : String) : List RetrievalResult → ℚ → ℚ
  | [], _ => 0
  | r :: rs, d => (if r.content = c then 1 / d else 0) + vSumContrib c rs (d + 1)

/-- The first result with content `c` in a list. -/
def firstWith (c : String) : List RetrievalResult → Option RetrievalResult
  | [] => none
  | r :: rs => if r.content = c then some r else firstWith c rs

/-- The fused map entry for content `c`, in closed form: last graph
contribution (if the content occurs in the graph list) plus the summed
vector contributions; a vector-only content keeps its first result object. -/
def fusedSpec (g v : List RetrievalResult) (c : String) : Option Fused :=
  match gLastContrib c g 61 with
  | some (r, q) => some ⟨r, q + vSumContrib c v 61⟩
  | none =>
      match firstWith c v with
      | some r => some ⟨r, vSumContrib c v 61⟩
      | none => none

/-- The fused association list built by `reciprocalRankFusion` before
sorting. -/
def fusedList (g v : List RetrievalResult) : List (String × Fused) :=
  vectorPass (graphPass [] g 0) v 0

/-- The fused score of a content string (0 if absent); output ordering is
phrased against this. -/
def specScore (g v : List RetrievalResult) (c : String) : ℚ :=
  match fusedSpec g v c with
  | some f => f.score
  | none => 0

/-- First-seen de-duplication of a list of content strings (the key order of
a JS `Map` filled by repeated `set`). -/
def firstSeen (acc : List String) : List String → List String
  | [] => acc
  | c :: cs => firstSeen (if c ∈ acc then acc else acc ++ [c]) cs

/-- What the BFS traversal emits for a visited id: the stored row, if it
exists and passes the filter. -/
def nodeHit (g : GraphSQL) (tf : Option (List NodeType)) (id : String) :
    Option GraphNode :=
  match g.findNode id with
  | some n => if typeOk tf n.type then some n else none
  | none => none

/-- What the DFS traversal emits for a visited id. -/
def nodeHitIM (g : GraphIM) (tf : Option (List NodeType)) (id : String) :
    Option GraphNode :=
  match alookup g.nodes id with
  | some n => if typeOk tf n.type then some n else none
  | none => none

/-! ## The retrieval engine's operations in state-passing form

Each method of the TS classes is a function of the stores; the methods match
on whether they assign to `this.nodes`/`this.edges`/the tables.  The read
operations below contain no store update — which is the content of the
frame claim. -/

def traverseOp (startId : String) (depth : ℕ) (tf : Option (List NodeType))
    (st : Stores) : Stores × List GraphNode :=
  (st, st.graph.traverse startId depth tf)

def nodesByTypeOp (t : NodeType) (st : Stores) : Stores × List GraphNode :=
  (st, st.graph.getNodesByType t)

def intentsOp (st : Stores) : Stores × List GraphNode :=
  (st, st.graph.getIntents)

def decisionsOp (st : Stores) : Stores × List GraphNode :=
  (st, st.graph.getDecisions)

def vsearchOp (p : Provider) (q : String) (k : ℕ) (st : Stores) :
    Stores × List VRow :=
  (st, vsearch p st.vectors q k)

def retrieveOp (p : Provider) (q : String) (b : ℚ) (st : Stores) :
    Stores × String :=
  (st, retrieve p st q b)

def sqlTraverseOp (startId : String) (depth : ℕ) (tf : Option (List NodeType))
    (g : GraphSQL) : GraphSQL × List GraphNode :=
  (g, g.traverse startId depth tf)

/-- `addNode` in the same form (it does write — the frame claim is only
about the read operations). -/
def addNodeOp (n : GraphNode) (st : Stores) : Stores × Unit :=
  ({ st with graph := st.graph.addNode n }, ())

/-! ## Concrete stores used by counterexamples and witnesses -/

def mkNode (id : String) (t : NodeType) (c : String) (ts : ℕ) : GraphNode :=
  ⟨id, t, c, ts⟩

def mkEdge (s t : String) : GraphEdge := ⟨s, t, .LED_TO, none⟩

/-- `S—A, A—B, B—C, S—B`: node `C` is at distance 2 from `S` (via `B`), but
the DFS reaches `B` first at depth 2 through `A`, so `C`'s expansion is cut
off by the depth bound and `C` is never reached again (`B` is visited). -/
def gDfs : GraphIM :=
  ((((((GraphIM.empty.addNode (mkNode "S" .Decision "s" 0)).addNode
    (mkNode "A" .Decision "a" 1)).addNode (mkNode "B" .Decision "b" 2)).addNode
    (mkNode "C" .Decision "c" 3)).addEdge (mkEdge "S" "A")).addEdge
    (mkEdge "A" "B") |>.addEdge (mkEdge "B" "C")).addEdge (mkEdge "S" "B")

/-- The same graph as rows of the SQLite-backed store. -/
def gSql : GraphSQL :=
  { nodes := [mkNode "S" .Decision "s" 0, mkNode "A" .Decision "a" 1,
      mkNode "B" .Decision "b" 2, mkNode "C" .Decision "c" 3],
    edges := [mkEdge "S" "A", mkEdge "A" "B", mkEdge "B" "C", mkEdge "S" "B"] }

/-- Two intents, `"a"` created before `"b"`. -/
def gInt2 : GraphIM :=
  (GraphIM.empty.addNode (mkNode "a" .Intent "first goal" 0)).addNode
    (mkNode "b" .Intent "second goal" 1)

/-- Graph-only fusion input with a duplicate content at ranks 0 and 2:
contents `x, y, x`. -/
def rX1 : RetrievalResult := ⟨"x", .graph, 1⟩
def rY : RetrievalResult := ⟨"y", .graph, 9/10⟩
def rX2 : RetrievalResult := ⟨"x", .graph, 8/10⟩

/-- A provider that always fails. -/
def pFail : Provider := fun _ => .error .unavailable

def rows1 : List VRow := [⟨"v1", "hello", [1, 0]⟩, ⟨"v2", "world", [0, 1]⟩]

def e0 : GraphEdge := ⟨"n1", "n2", .LED_TO, none⟩

/-! # Theorems -/

/-! ## Association-list and sorting lemmas -/

theorem alookup_mapSet_self {α : Type} (m : List (String × α)) (k : String)
    (v : α) : alookup (mapSet m k v) k = some v := by
  induction m with
  | nil => simp [mapSet, alookup]
  | cons p m ih =>
      by_cases h : p.1 = k
      · simp [mapSet, h, alookup]
      · simpa [mapSet, h, alookup] using ih

theorem alookup_mapSet_ne {α : Type} (m : List (String × α)) (k k' : String)
    (v : α) (h : k ≠ k') : alookup (mapSet m k v) k' = alookup m k' := by
  induction m with
  | nil => simp [mapSet, alookup, h]
  | cons p m ih =>
      by_cases hp : p.1 = k
      · have hp' : ¬ p.1 = k' := fun hh => h (hp ▸ hh)
        simp [mapSet, hp, alookup, h, hp']
      · have hm : mapSet (p :: m) k v = p :: mapSet m k v := by
          simp [mapSet, hp]
        rw [hm]
        by_cases hpk : p.1 = k'
        · simp [alookup, hpk]
        · simp [alookup, hpk, ih]

theorem mapSet_keys {α : Type} (m : List (String × α)) (k : String) (v : α) :
    (mapSet m k v).map Prod.fst = m.map Prod.fst ∨
      (mapSet m k v).map Prod.fst = m.map Prod.fst ++ [k] := by
  induction m with
  | nil => simp [mapSet]
  | cons p m ih =>
      by_cases hp : p.1 = k
      · left; simp [mapSet, hp]
      · rcases ih with h | h
        · left; simp [mapSet, hp, h]
        · right; simp [mapSet, hp, h]

theorem filter_key_nil {α : Type} (m : List (String × α)) (k : String)
    (h : k ∉ m.map Prod.fst) :
    m.filter (fun p => p.1 = k) = [] := by
  induction m with
  | nil => rfl
  | cons p m ih =>
      simp only [List.map_cons, List.mem_cons] at h
      push_neg at h
      have hp : ¬ p.1 = k := fun hh => h.1 hh.symm
      simp [List.filter_cons, hp, ih h.2]

theorem mapSet_filter_key {α : Type} (m : List (String × α)) (k : String)
    (v : α) (h : (m.map Prod.fst).Nodup) :
    (mapSet m k v).filter (fun p => p.1 = k) = [(k, v)] := by
  induction m with
  | nil => simp [mapSet, List.filter_cons]
  | cons p m ih =>
      simp only [List.map_cons, List.nodup_cons] at h
      by_cases hp : p.1 = k
      · have : m.filter (fun q => q.1 = k) = [] :=
          filter_key_nil m k (by simpa [hp] using h.1)
        simp [mapSet, hp, List.filter_cons, this]
      · simp [mapSet, hp, List.filter_cons, ih h.2]

theorem filter_not_filter {α : Type} (p : α → Prop) [DecidablePred p]
    (l : List α) :
    (l.filter (fun a => ¬ p a)).filter (fun a => p a) = [] := by
  induction l with
  | nil => rfl
  | cons a l ih =>
      by_cases h : p a <;> simp [List.filter_cons, h, ih]

theorem filter_replace_append {α : Type} (p : α → Prop) [DecidablePred p]
    (l : List α) (x : α) (hx : p x) :
    ((l.filter (fun a => ¬ p a)) ++ [x]).filter (fun a => p a) = [x] := by
  rw [List.filter_append, filter_not_filter]
  simp [List.filter_cons, hx]

/-! ## C1: budget selection -/

theorem fitAux_sublist (items : List String) (b : ℚ) :
    (fitAux b items).Sublist items := by
  induction items generalizing b with
  | nil => simp [fitAux]
  | cons item items ih =>
      by_cases h : (countTokens item : ℚ) ≤ b
      · simpa [fitAux, h] using (ih (b - countTokens item)).cons₂ item
      · simpa [fitAux, h] using (ih b).cons item

theorem fitAux_sum_le (items : List String) (b : ℚ) :
    ((fitAux b items).map (fun s => (countTokens s : ℚ))).sum ≤ max b 0 := by
  induction items generalizing b with
  | nil => simp [fitAux, le_max_iff]
  | cons item items ih =>
      by_cases h : (countTokens item : ℚ) ≤ b
      · have ht : (0 : ℚ) ≤ (countTokens item : ℚ) := Nat.cast_nonneg _
        have hb : (0 : ℚ) ≤ b := le_trans ht h
        have := ih (b - countTokens item)
        rw [max_eq_left (by linarith)] at this
        rw [max_eq_left hb]
        simp only [fitAux, h, if_true, List.map_cons, List.sum_cons]
        linarith
      · simpa [fitAux, h] using ih b

theorem selectAux_eq_fitAux (rs : List RetrievalResult) (b : ℚ) :
    selectAux b rs = fitAux b (rs.map (·.content)) := by
  induction rs generalizing b with
  | nil => rfl
  | cons r rs ih =>
      by_cases h : (countTokens r.content : ℚ) ≤ b <;>
        simp [selectAux, fitAux, h, ih]

/-- C1 (corrected).  `fit_to_budget` keeps the given order and never exceeds
the budget, but it does NOT stop at the first overflowing item: an item that
does not fit in the remaining budget is skipped and the walk continues, so
the result is a subsequence (not necessarily a prefix) of the input and may
contain items situated after a skipped one.  `HybridRetriever`'s
`selectWithinBudget` follows exactly the same skip-and-continue policy
(identical loop, joined with a blank line). -/
theorem budget_selection_greedy_skip (items : List String) (b : ℚ) :
    (fitToTokenBudget items b).Sublist items ∧
    ((fitToTokenBudget items b).map (fun s => (countTokens s : ℚ))).sum ≤ max b 0 ∧
    (∀ rs : List RetrievalResult,
      selectWithinBudget rs b =
        String.intercalate "\n\n" (fitToTokenBudget (rs.map (·.content)) b)) :=
  ⟨fitAux_sublist items b, fitAux_sum_le items b,
    fun rs => by rw [selectWithinBudget, fitToTokenBudget, selectAux_eq_fitAux]⟩

/-- C1 counterexample.  With items of 2 and 1 tokens and budget 1, the code
skips the first item and still takes the second: the result `["bbbb"]` is
not a prefix of `["aaaaaaaa", "bbbb"]` (the claimed stop-at-first-overflow
policy would return `[]`), so `fit_to_budget` does include an item after
skipping one for overflow. -/
theorem budget_selection_not_prefix :
    fitToTokenBudget ["aaaaaaaa", "bbbb"] 1 = ["bbbb"] ∧
    ¬ ∃ t, "aaaaaaaa" :: "bbbb" :: t = ["bbbb"] := by
  refine ⟨by decide, ?_⟩
  rintro ⟨t, h⟩
  exact absurd (congrArg List.head? h) (by simp)

/-! ## C4: idempotent replace -/

theorem mapSet_keys_of_mem {α : Type} (m : List (String × α)) (k : String)
    (v : α) (h : k ∈ m.map Prod.fst) :
    (mapSet m k v).map Prod.fst = m.map Prod.fst := by
  induction m with
  | nil => simp at h
  | cons p m ih =>
      by_cases hp : p.1 = k
      · simp [mapSet, hp]
      · simp only [List.map_cons, List.mem_cons] at h
        rcases h with h | h
        · exact absurd h.symm hp
        · simp [mapSet, hp, ih h]

theorem mapSet_keys_of_not_mem {α : Type} (m : List (String × α)) (k : String)
    (v : α) (h : k ∉ m.map Prod.fst) :
    (mapSet m k v).map Prod.fst = m.map Prod.fst ++ [k] := by
  induction m with
  | nil => simp [mapSet]
  | cons p m ih =>
      simp only [List.map_cons, List.mem_cons] at h
      push_neg at h
      have hp : ¬ p.1 = k := fun hh => h.1 hh.symm
      simp [mapSet, hp, ih h.2]

theorem mapSet_keys_nodup {α : Type} (m : List (String × α)) (k : String)
    (v : α) (h : (m.map Prod.fst).Nodup) :
    ((mapSet m k v).map Prod.fst).Nodup := by
  by_cases hk : k ∈ m.map Prod.fst
  · rw [mapSet_keys_of_mem m k v hk]; exact h
  · rw [mapSet_keys_of_not_mem m k v hk]
    simp [List.nodup_append, h, hk]

/-- C4 (corrected).  Inserting the same node id twice leaves exactly one node
with the latest content, in both graph generations; a vector insert with an
existing id replaces the prior entry; re-adding an edge with the same
`(from, to, type)` key overwrites in the SQLite-backed store — but the
in-memory `addEdge` is a plain `push`, so there re-adding the same triple
DUPLICATES the edge instead of overwriting it. -/
theorem insert_replace_semantics :
    (∀ (g : GraphIM) (n₁ n₂ : GraphNode), n₁.id = n₂.id →
      (g.nodes.map Prod.fst).Nodup →
      alookup ((g.addNode n₁).addNode n₂).nodes n₂.id = some n₂ ∧
      (((g.addNode n₁).addNode n₂).nodes.filter
        (fun p => p.1 = n₂.id)).length = 1) ∧
    (∀ (g : GraphSQL) (n₁ n₂ : GraphNode), n₁.id = n₂.id →
      ((g.addNode n₁).addNode n₂).nodes.filter (fun m => m.id = n₂.id) = [n₂]) ∧
    (∀ (g : GraphSQL) (e₁ e₂ : GraphEdge), e₁.source = e₂.source →
      e₁.target = e₂.target → e₁.type = e₂.type →
      ((g.addEdge e₁).addEdge e₂).edges.filter
        (fun f => f.source = e₂.source ∧ f.target = e₂.target ∧
          f.type = e₂.type) = [e₂]) ∧
    (∀ (p : Provider) (rows : List VRow) (id c₁ c₂ : String),
      (vadd p (vadd p rows id c₁) id c₂).filter (fun r => r.id = id) =
        [⟨id, c₂, generateEmbedding p c₂⟩]) ∧
    (∀ (g : GraphIM) (e : GraphEdge),
      ((g.addEdge e).addEdge e).edges = g.edges ++ [e, e]) := by
  refine ⟨?_, ?_, ?_, ?_, ?_⟩
  · intro g n₁ n₂ hid hkeys
    constructor
    · simp [GraphIM.addNode, alookup_mapSet_self]
    · have h₁ := mapSet_keys_nodup g.nodes n₁.id n₁ hkeys
      have := mapSet_filter_key (mapSet g.nodes n₁.id n₁) n₂.id n₂ h₁
      simp [GraphIM.addNode, this]
  · intro g n₁ n₂ _
    exact filter_replace_append (fun m : GraphNode => m.id = n₂.id)
      ((g.addNode n₁).nodes) n₂ rfl
  · intro g e₁ e₂ _ _ _
    exact filter_replace_append
      (fun f : GraphEdge => f.source = e₂.source ∧ f.target = e₂.target ∧
        f.type = e₂.type) ((g.addEdge e₁).edges) e₂ ⟨rfl, rfl, rfl⟩
  · intro p rows id c₁ c₂
    exact filter_replace_append (fun r : VRow => r.id = id)
      (vadd p rows id c₁) ⟨id, c₂, generateEmbedding p c₂⟩ rfl
  · intro g e
    simp [GraphIM.addEdge]

/-- C4 witness: the replace semantics at concrete inputs. -/
theorem insert_replace_semantics_witness :
    alookup ((GraphIM.empty.addNode (mkNode "n" .Intent "c1" 0)).addNode
      (mkNode "n" .Intent "c2" 1)).nodes "n" = some (mkNode "n" .Intent "c2" 1) ∧
    ((gSql.addEdge e0).addEdge e0).edges.filter
      (fun f => f.source = e0.source ∧ f.target = e0.target ∧
        f.type = e0.type) = [e0] :=
  ⟨(insert_replace_semantics.1 GraphIM.empty (mkNode "n" .Intent "c1" 0)
      (mkNode "n" .Intent "c2" 1) rfl (by decide)).1,
    insert_replace_semantics.2.2.1 gSql e0 e0 rfl rfl rfl⟩

/-- C4 counterexample.  The in-memory `addEdge` does not overwrite: pushing
the same `(from, to, type)` triple twice leaves TWO edges with that key, not
one. -/
theorem addEdge_duplicates :
    (((GraphIM.empty.addEdge e0).addEdge e0).edges.filter
      (fun f => f.source = e0.source ∧ f.target = e0.target ∧
        f.type = e0.type)).length = 2 ∧ (2 : ℕ) ≠ 1 := by
  constructor
  · decide
  · decide

/-! ## C6: cosine similarity -/

theorem dotP_comm (a b : List ℚ) : dotP a b = dotP b a := by
  induction a generalizing b with
  | nil => cases b <;> simp [dotP]
  | cons x a ih =>
      cases b with
      | nil => simp [dotP]
      | cons y b => simp [dotP, ih, mul_comm]

theorem dotP_zero_left (a b : List ℚ) (h : ∀ x ∈ a, x = 0) : dotP a b = 0 := by
  induction a generalizing b with
  | nil => simp [dotP]
  | cons x a ih =>
      cases b with
      | nil => simp [dotP]
      | cons y b =>
          have hx : x = 0 := h x (by simp)
          have := ih b (fun z hz => h z (by simp [hz]))
          simp [dotP, hx, this]

theorem dotP_zero_right (a b : List ℚ) (h : ∀ x ∈ b, x = 0) : dotP a b = 0 := by
  rw [dotP_comm]
  exact dotP_zero_left b a h

theorem sumSq_zero (a : List ℚ) (h : ∀ x ∈ a, x = 0) : sumSq a = 0 := by
  induction a with
  | nil => rfl
  | cons x a ih =>
      have hx : x = 0 := h x (by simp)
      have := ih (fun z hz => h z (by simp [hz]))
      simp [sumSq, hx, this]

/-- C6 (corrected).  `cosineSimilarity` is symmetric for equal-length vector
pairs (the products and branch conditions coincide term by term), but the
code has NO special case for all-zero vectors: either argument being
all-zero forces `dot = 0` and `normA * normB = 0`, so the division is `0/0`
and the result is NaN, not `0.0`.  (For unequal lengths the loop reads the
shorter vector out of range, so symmetry also fails there — see the
counterexample.) -/
theorem cosine_symm_and_zero (a b : List ℚ) :
    (a.length = b.length → cosineFVal a b = cosineFVal b a) ∧
    ((∀ x ∈ a, x = 0) → cosineFVal a b = .nan) ∧
    (b.length = a.length → (∀ x ∈ b, x = 0) → cosineFVal a b = .nan) := by
  refine ⟨?_, ?_, ?_⟩
  · intro hlen
    have h1 : ¬ b.length < a.length := by omega
    have h2 : ¬ a.length < b.length := by omega
    have h3 : b.take a.length = b := by rw [hlen, List.take_length]
    have h4 : a.take b.length = a := by rw [← hlen, List.take_length]
    simp only [cosineFVal, h1, h2, if_false, h3, h4, dotP_comm b a,
      mul_comm (sumSq b) (sumSq a)]
  · intro hz
    by_cases hlen : b.length < a.length
    · simp [cosineFVal, hlen]
    · have hd : dotP a b = 0 := dotP_zero_left a b hz
      have hs : sumSq a = 0 := sumSq_zero a hz
      simp [cosineFVal, hlen, hd, hs]
  · intro hlen hz
    have hlt : ¬ b.length < a.length := by omega
    have hd : dotP a b = 0 :=
      dotP_zero_right a b hz
    have hs : sumSq (b.take a.length) = 0 :=
      sumSq_zero _ (fun x hx => hz x (List.mem_of_mem_take hx))
    simp [cosineFVal, hlt, hd, hs]

/-- C6 witness: at `a = [0,0]`, `b = [3,4]` the code returns NaN although the
spec promises `0.0`. -/
theorem cosine_symm_and_zero_witness :
    cosineFVal [0, 0] [3, 4] = cosineFVal [3, 4] [0, 0] ∧
    cosineFVal [0, 0] [3, 4] = .nan :=
  ⟨(cosine_symm_and_zero [0, 0] [3, 4]).1 (by simp),
    (cosine_symm_and_zero [0, 0] [3, 4]).2.1 (by norm_num)⟩

/-- C6 counterexample.  `cosine([0,0], [1,0])` is NaN (0/0), not `0.0`; and
for vectors of unequal length symmetry fails outright (`cosine([1], [1,1])`
is finite `1` while `cosine([1,1], [1])` reads out of range and is NaN). -/
theorem cosine_zero_is_nan :
    cosineFVal [0, 0] [1, 0] = .nan ∧
    (∀ n p : ℚ, FVal.nan ≠ FVal.fin n p) ∧
    cosineFVal [1] [1, 1] = .fin 1 1 ∧
    cosineFVal [1, 1] [1] = .nan := by
  refine ⟨by norm_num [cosineFVal, dotP, sumSq], ?_,
    by norm_num [cosineFVal, dotP, sumSq], by norm_num [cosineFVal]⟩
  intro n p h
  exact FVal.noConfusion h

/-! ## C8: entity extraction -/

/-- C8 (corrected).  `extractEntities` sets a node's content to
`(match[2] || match[1] || match[0]).trim()` — the SECOND capture group is
preferred, then the first, then the full match (the spec's "first non-empty
capture group" description is backwards).  Consequently extracting
`"I want to build a login page"` produces exactly one `Intent` node whose
content is `"a login page"` (the second group of
`/i want to (build|…) (.+)/i`), not `"build a login page"`; a one-group
pattern such as `/goal is to (.+)/i` falls back to `match[1]`. -/
theorem extract_entities_content :
    (∀ (g : GraphIM) (ts : ℕ) (content : String),
      ((extractEntities g ts content).2).map (fun n => (n.type, n.content)) =
        ENTITY_PATTERNS.flatMap (fun tp =>
          tp.2.flatMap (fun rx =>
            (matchAll rx content).map (fun mc =>
              (tp.1, jsTrim (entityContent mc.1 mc.2)))))) ∧
    ((extractEntities GraphIM.empty 0 "I want to build a login page").2.map
      (fun n => (n.type, n.content)) = [(.Intent, "a login page")]) ∧
    ((extractEntities GraphIM.empty 0 "goal is to ship").2.map
      (fun n => (n.type, n.content)) = [(.Intent, "ship")]) := by
  refine ⟨?_, by decide, by decide⟩
  intro g ts content
  simp only [extractEntities]
  rw [List.mapIdx_eq_enum_map, List.map_map]
  have h : ((fun n : GraphNode => (n.type, n.content)) ∘
      Function.uncurry (fun (i : ℕ) (tc : NodeType × String) =>
        GraphNode.mk (tc.1.lower ++ "_" ++ toString ts ++ "_" ++ toString i)
          tc.1 tc.2 ts)) = Prod.snd := rfl
  rw [h, List.enum_map_snd]

/-- C8 counterexample.  The scenario's claimed content `"build a login page"`
differs from what the code produces (`"a login page"`). -/
theorem extract_entities_scenario_content :
    ((extractEntities GraphIM.empty 0 "I want to build a login page").2.map
      (fun n => n.content) = ["a login page"]) ∧
    "a login page" ≠ "build a login page" := ⟨by decide, by decide⟩

/-! ## C7: graph search -/

theorem mapIdx_getElem {α β : Type} (f : ℕ → α → β) (l : List α) (i : ℕ) :
    (l.mapIdx f)[i]? = (l[i]?).map (f i) := by
  rw [List.mapIdx_eq_enum_map, List.getElem?_map, List.getElem?_enum]
  cases l[i]? <;> rfl

/-- C7 (corrected).  `graphSearch` takes all Intent nodes in STORED order —
the in-memory `getNodesByType` filters the `Map` values in insertion order,
oldest first, so the score `1.0 - 0.1·idx` gives the TOP score to the OLDEST
intent, not the most recent — and, whenever at least one intent exists,
performs a depth-2 traversal from `intents[intents.length - 1]` (the LAST
element of that order, i.e. the most recently inserted intent) restricted to
`{Decision, CodeArtifact, Solution}`, scored `0.8 - 0.05·idx`. -/
theorem graph_search_structure :
    (∀ (g : GraphIM) (t : NodeType),
      g.getNodesByType t = g.nodeValues.filter (fun n => n.type = t)) ∧
    (∀ g : GraphIM, g.getIntents = [] → graphSearch g = []) ∧
    (∀ (g : GraphIM) (gl : GraphNode), g.getIntents.getLast? = some gl →
      graphSearch g = intentResults g.getIntents ++
        connectedResults (g.traverse gl.id 2
          (some [.Decision, .CodeArtifact, .Solution]))) ∧
    (∀ (l : List GraphNode) (i : ℕ),
      (intentResults l)[i]? = (l[i]?).map
        (fun n => ⟨"[INTENT] " ++ n.content, .graph, 1 - (i : ℚ) * (1/10)⟩)) ∧
    (∀ (l : List GraphNode) (i : ℕ),
      (connectedResults l)[i]? = (l[i]?).map
        (fun n => ⟨"[" ++ n.type.upper ++ "] " ++ n.content, .graph,
          8/10 - (i : ℚ) * (5/100)⟩)) := by
  refine ⟨fun g t => rfl, ?_, ?_, ?_, ?_⟩
  · intro g h
    simp [graphSearch, h, intentResults]
  · intro g gl h
    simp only [graphSearch, h]
  · intro l i
    exact mapIdx_getElem _ l i
  · intro l i
    exact mapIdx_getElem _ l i

/-- C7 witness: the decomposition at a concrete two-intent store (the
traversal starts from `"b"`, the last stored intent). -/
theorem graph_search_structure_witness :
    graphSearch gInt2 = intentResults gInt2.getIntents ++
      connectedResults (gInt2.traverse "b" 2
        (some [.Decision, .CodeArtifact, .Solution])) :=
  graph_search_structure.2.2.1 gInt2 (mkNode "b" .Intent "second goal" 1)
    (by decide)

/-- C7 counterexample.  In the store `gInt2`, intent `"a"` (created at 0) is
older than `"b"` (created at 1), yet `getIntents` lists `"a"` FIRST — the
`createdAt` sequence `[0, 1]` is not most-recently-created-first — and
`graphSearch` gives its top rank (score 1.0) to the oldest intent `"a"`,
contradicting scoring by recency rank. -/
theorem intents_not_recency_ordered :
    (gInt2.getIntents).map (fun n => (n.id, n.createdAt)) =
      [("a", 0), ("b", 1)] ∧
    ¬ List.Sorted (fun x y : ℕ => y ≤ x) [0, 1] ∧
    (graphSearch gInt2).map (·.content) =
      ["[INTENT] first goal", "[INTENT] second goal"] :=
  ⟨by decide, by decide, by decide⟩

/-! ## C2: embedding failure -/

theorem cosine_zero_query (emb : List ℚ) :
    cosineFVal (List.replicate 384 0) emb = .nan := by
  unfold cosineFVal
  by_cases hlen : emb.length < (List.replicate (384 : ℕ) (0 : ℚ)).length
  · rw [if_pos hlen]
  · have hz : ∀ x ∈ List.replicate (384 : ℕ) (0 : ℚ), x = 0 :=
      fun x hx => List.eq_of_mem_replicate hx
    have hd : dotP (List.replicate 384 0) emb = 0 := dotP_zero_left _ _ hz
    have hs : sumSq (List.replicate (384 : ℕ) (0 : ℚ)) = 0 := sumSq_zero _ hz
    rw [if_neg hlen, if_pos (by rw [hs, zero_mul]), if_pos hd]

theorem sortBy_all_le {α : Type} (le : α → α → Bool) (l : List α)
    (h : ∀ x ∈ l, ∀ y ∈ l, le x y = true) : sortBy le l = l := by
  induction l with
  | nil => rfl
  | cons x l ih =>
      have hl : sortBy le l = l :=
        ih (fun a ha b hb => h a (by simp [ha]) b (by simp [hb]))
      rw [sortBy, hl]
      cases l with
      | nil => rfl
      | cons y l2 =>
          have : le x y = true := h x (by simp) y (by simp)
          simp [insBy, this]

/-- C2 (corrected).  When the injected embedding provider fails,
`VectorStore.add` and `search` do NOT fail with an `EmbeddingUnavailable`
error: `generateEmbedding` catches the failure and silently substitutes a
384-dimensional zero vector.  `search` then scores every stored entry
against the zero query — every score is NaN — and returns the first
`min(k, size)` stored entries in stored order, so during `retrieve` the
failure is indeed never propagated (graph retrieval still runs), but the
vector search is NOT treated as empty: it returns up to 10 stored entries. -/
theorem embedding_failure_zero_fallback :
    ∀ (p : Provider) (rows : List VRow) (q : String) (k : ℕ)
      (e : EmbeddingUnavailable), p q = .error e →
      generateEmbedding p q = List.replicate 384 0 ∧
      vsearch p rows q k = rows.take k ∧
      (∀ (g : GraphIM) (b : ℚ),
        retrieve p ⟨g, rows⟩ q b = selectWithinBudget
          (reciprocalRankFusion (graphSearch g)
            ((rows.take 10).mapIdx (fun idx r =>
              ⟨r.content, .vector, 1 - (idx : ℚ) * (1/10)⟩))) b) := by
  intro p rows q k e hp
  have hemb : generateEmbedding p q = List.replicate 384 0 := by
    simp [generateEmbedding, hp]
  have hsearch : ∀ k', vsearch p rows q k' = rows.take k' := by
    intro k'
    unfold vsearch
    rw [hemb]
    have hmap : rows.map (fun r => Scored.mk r (cosineFVal
        (List.replicate 384 0) r.embedding)) =
        rows.map (fun r => Scored.mk r .nan) :=
      List.map_congr_left (fun r _ => by rw [cosine_zero_query])
    rw [hmap]
    rw [sortBy_all_le _ _ (by
      intro x hx y hy
      obtain ⟨rx, -, hrx⟩ := List.mem_map.mp hx
      rw [← hrx]
      simp [fvalCmpLe])]
    rw [← List.map_take, List.map_map]
    have hid : ((fun x : Scored => x.entry) ∘ fun r => Scored.mk r FVal.nan) =
        id := rfl
    rw [hid, List.map_id]
  exact ⟨hemb, hsearch k, fun g b => by
    rw [retrieve, vectorSearchResults, hsearch 10]⟩

/-- C2 witness: the fallback at a concrete failing provider and store. -/
theorem embedding_failure_zero_fallback_witness :
    generateEmbedding pFail "q" = List.replicate 384 0 ∧
    vsearch pFail rows1 "q" 10 = rows1.take 10 :=
  ⟨(embedding_failure_zero_fallback pFail rows1 "q" 10 .unavailable rfl).1,
    (embedding_failure_zero_fallback pFail rows1 "q" 10 .unavailable rfl).2.1⟩

/-- C2 counterexample.  With an always-failing provider, `search` over a
non-empty store succeeds and returns the whole (non-empty) store — it
neither fails with `EmbeddingUnavailable` (the zero vector is substituted)
nor behaves as "vector search returned empty". -/
theorem embedding_failure_not_error :
    generateEmbedding pFail "q" = List.replicate 384 0 ∧
    vsearch pFail rows1 "q" 10 = rows1 ∧ rows1 ≠ [] := by
  refine ⟨rfl, ?_, by decide⟩
  decide

/-! ## Fused-map invariants (used by C5 and C9) -/

/-- Well-formedness of the `fusedScores` map: keys are distinct (it is a JS
`Map`) and every stored result's content equals its key. -/
def WFmap (m : List (String × Fused)) : Prop :=
  (m.map Prod.fst).Nodup ∧ ∀ p ∈ m, p.2.result.content = p.1

theorem alookup_eq_none {α : Type} (m : List (String × α)) (k : String) :
    alookup m k = none ↔ k ∉ m.map Prod.fst := by
  induction m with
  | nil => simp [alookup]
  | cons p m ih =>
      by_cases hp : p.1 = k
      · simp [alookup, hp]
      · simp only [alookup, hp, if_false, List.map_cons, List.mem_cons, ih]
        constructor
        · rintro h (h1 | h1)
          · exact hp h1.symm
          · exact h h1
        · intro h h1
          exact h (Or.inr h1)

theorem mem_mapSet {α : Type} (m : List (String × α)) (k : String) (v : α)
    (p : String × α) (h : p ∈ mapSet m k v) : p ∈ m ∨ p = (k, v) := by
  induction m with
  | nil => simpa [mapSet] using h
  | cons q m ih =>
      by_cases hq : q.1 = k
      · simp only [mapSet, hq, if_true, List.mem_cons] at h
        rcases h with h | h
        · exact Or.inr h
        · exact Or.inl (List.mem_cons_of_mem q h)
      · simp only [mapSet, hq, if_false, List.mem_cons] at h
        rcases h with h | h
        · exact Or.inl (h ▸ List.mem_cons_self q m)
        · rcases ih h with h1 | h1
          · exact Or.inl (List.mem_cons_of_mem q h1)
          · exact Or.inr h1

theorem WFmap_mapSet (m : List (String × Fused)) (r : RetrievalResult)
    (q : ℚ) (h : WFmap m) : WFmap (mapSet m r.content ⟨r, q⟩) := by
  refine ⟨mapSet_keys_nodup m r.content _ h.1, ?_⟩
  intro p hp
  rcases mem_mapSet m r.content ⟨r, q⟩ p hp with h1 | h1
  · exact h.2 p h1
  · rw [h1]

theorem WFmap_graphPass (rs : List RetrievalResult) :
    ∀ (m : List (String × Fused)) (k : ℕ), WFmap m →
      WFmap (graphPass m rs k) := by
  induction rs with
  | nil => intro m k h; exact h
  | cons r rs ih =>
      intro m k h
      exact ih _ (k + 1) (WFmap_mapSet m r _ h)

theorem bumpKey_keys (m : List (String × Fused)) (k : String)
    (r : RetrievalResult) (inc : ℚ) (f : Fused)
    (h : alookup m k = some f) :
    (bumpKey m k r inc).map Prod.fst = m.map Prod.fst := by
  rw [bumpKey, h, List.map_map]
  refine List.map_congr_left (fun p _ => ?_)
  by_cases hp : p.1 = k <;> simp [hp]

theorem WFmap_bumpKey (m : List (String × Fused)) (r : RetrievalResult)
    (inc : ℚ) (h : WFmap m) : WFmap (bumpKey m r.content r inc) := by
  cases hl : alookup m r.content with
  | some f =>
      refine ⟨by rw [bumpKey_keys m r.content r inc f hl]; exact h.1, ?_⟩
      intro p hp
      rw [bumpKey, hl] at hp
      obtain ⟨q, hq, hqp⟩ := List.mem_map.mp hp
      by_cases hqk : q.1 = r.content
      · rw [← hqp]
        simp only [hqk, if_true]
        exact (h.2 q hq).trans hqk
      · rw [← hqp]
        simp only [hqk, if_false]
        exact h.2 q hq
  | none =>
      have hk : r.content ∉ m.map Prod.fst := (alookup_eq_none _ _).mp hl
      constructor
      · rw [bumpKey, hl, List.map_append]
        simp [List.nodup_append, h.1, hk]
      · intro p hp
        rw [bumpKey, hl] at hp
        rcases List.mem_append.mp hp with h1 | h1
        · exact h.2 p h1
        · simp only [List.mem_singleton] at h1
          rw [h1]

theorem WFmap_vectorPass (vs : List RetrievalResult) :
    ∀ (m : List (String × Fused)) (k : ℕ), WFmap m →
      WFmap (vectorPass m vs k) := by
  induction vs with
  | nil => intro m k h; exact h
  | cons r vs ih =>
      intro m k h
      exact ih _ (k + 1) (WFmap_bumpKey m r _ h)

theorem WFmap_fusedList (g v : List RetrievalResult) : WFmap (fusedList g v) :=
  WFmap_vectorPass v _ 0 (WFmap_graphPass g [] 0 ⟨List.nodup_nil, by simp⟩)

theorem insBy_perm {α : Type} (le : α → α → Bool) (x : α) (l : List α) :
    List.Perm (insBy le x l) (x :: l) := by
  induction l with
  | nil => exact List.Perm.refl _
  | cons y l ih =>
      by_cases h : le x y = true
      · rw [insBy, if_pos h]
      · rw [insBy, if_neg h]
        exact (ih.cons y).trans (List.Perm.swap x y l)

theorem sortBy_perm {α : Type} (le : α → α → Bool) (l : List α) :
    List.Perm (sortBy le l) l := by
  induction l with
  | nil => exact List.Perm.refl _
  | cons x l ih =>
      exact (insBy_perm le x _).trans (ih.cons x)

/-- The contents of the fused output are pairwise distinct: fusion keys by
content string. -/
theorem rrf_contents_nodup (g v : List RetrievalResult) :
    ((reciprocalRankFusion g v).map (·.content)).Nodup := by
  have hwf := WFmap_fusedList g v
  have hperm : List.Perm (sortBy fusedLe ((fusedList g v).map (·.2)))
      ((fusedList g v).map (·.2)) := sortBy_perm _ _
  have h3 : ((fusedList g v).map (·.2)).map (fun f => f.result.content) =
      (fusedList g v).map Prod.fst := by
    rw [List.map_map]
    exact List.map_congr_left (fun p hp => hwf.2 p hp)
  have h2 : List.Perm ((sortBy fusedLe ((fusedList g v).map (·.2))).map
      (fun f => f.result.content)) ((fusedList g v).map Prod.fst) := by
    rw [← h3]
    exact hperm.map _
  have : ((reciprocalRankFusion g v).map (·.content)) =
      (sortBy fusedLe ((fusedList g v).map (·.2))).map
        (fun f => f.result.content) := by
    rw [reciprocalRankFusion, List.map_map]
    rfl
  rw [this]
  exact h2.nodup_iff.mpr hwf.1

/-! ## C5: reciprocal rank fusion -/

theorem alookup_append {α : Type} (m₁ m₂ : List (String × α)) (c : String) :
    alookup (m₁ ++ m₂) c =
      match alookup m₁ c with
      | some v => some v
      | none => alookup m₂ c := by
  induction m₁ with
  | nil => rfl
  | cons p m₁ ih =>
      by_cases hp : p.1 = c
      · simp [alookup, hp]
      · simp [alookup, hp, ih]

theorem graphPass_alookup (rs : List RetrievalResult) :
    ∀ (m : List (String × Fused)) (k : ℕ) (c : String),
      alookup (graphPass m rs k) c =
        match gLastContrib c rs (60 + (k : ℚ) + 1) with
        | some rq => some ⟨rq.1, rq.2⟩
        | none => alookup m c := by
  induction rs with
  | nil => intro m k c; rfl
  | cons r rs ih =>
      intro m k c
      have hcast : 60 + ((k + 1 : ℕ) : ℚ) + 1 = (60 + (k : ℚ) + 1) + 1 := by
        push_cast; ring
      rw [graphPass, ih _ (k + 1) c, hcast, gLastContrib]
      cases hg : gLastContrib c rs ((60 + (k : ℚ) + 1) + 1) with
      | some x => rfl
      | none =>
          by_cases hc : r.content = c
          · rw [if_pos hc, ← hc, alookup_mapSet_self]
          · rw [if_neg hc, alookup_mapSet_ne m r.content c _ hc]

theorem map_upd_id (m : List (String × Fused)) (k : String) (inc : ℚ)
    (h : k ∉ m.map Prod.fst) :
    m.map (fun p => if p.1 = k then
      (p.1, Fused.mk p.2.result (p.2.score + inc)) else p) = m := by
  have : ∀ p ∈ m, (if p.1 = k then
      (p.1, Fused.mk p.2.result (p.2.score + inc)) else p) = p := by
    intro p hp
    have : ¬ p.1 = k := fun he => h (he ▸ List.mem_map_of_mem Prod.fst hp)
    rw [if_neg this]
  rw [List.map_congr_left this]
  exact List.map_id m

theorem bumpKey_alookup_some (m : List (String × Fused)) (k : String)
    (r : RetrievalResult) (inc : ℚ) (f₀ : Fused)
    (hnd : (m.map Prod.fst).Nodup) (h : alookup m k = some f₀) (c : String) :
    alookup (bumpKey m k r inc) c =
      if k = c then some ⟨f₀.result, f₀.score + inc⟩ else alookup m c := by
  have hbk : bumpKey m k r inc = m.map (fun p => if p.1 = k then
      (p.1, Fused.mk p.2.result (p.2.score + inc)) else p) := by
    rw [bumpKey, h]
  rw [hbk]
  clear hbk
  induction m with
  | nil => simp [alookup] at h
  | cons p m ih =>
      simp only [List.map_cons, List.nodup_cons] at hnd
      by_cases hpk : p.1 = k
      · have hf : f₀ = p.2 := by
          simp only [alookup, if_pos hpk] at h
          exact (Option.some_inj.mp h).symm
        have hnotin : k ∉ m.map Prod.fst := by rw [← hpk]; exact hnd.1
        rw [List.map_cons, if_pos hpk, map_upd_id m k inc hnotin]
        by_cases hpc : p.1 = c
        · have hkc : k = c := hpk.symm.trans hpc
          simp [alookup, hpc, hkc, hf]
        · have hkc : ¬ k = c := fun he => hpc (hpk.trans he)
          simp [alookup, hpc, hkc]
      · have hm : alookup m k = some f₀ := by
          simp only [alookup, if_neg hpk] at h
          exact h
        rw [List.map_cons, if_neg hpk]
        by_cases hpc : p.1 = c
        · have hkc : ¬ k = c := fun he => hpk (hpc.trans he.symm)
          simp [alookup, hpc, hkc]
        · simp only [alookup, hpc, if_false]
          rw [ih hnd.2 hm]

theorem bumpKey_alookup_none (m : List (String × Fused)) (k : String)
    (r : RetrievalResult) (inc : ℚ) (h : alookup m k = none) (c : String) :
    alookup (bumpKey m k r inc) c =
      if k = c then some ⟨r, inc⟩ else alookup m c := by
  rw [bumpKey, h, alookup_append]
  by_cases hkc : k = c
  · have hmc : alookup m c = none := hkc ▸ h
    simp [hmc, alookup, hkc]
  · cases hm : alookup m c with
    | some v => simp [hm, hkc]
    | none => simp [hm, alookup, hkc]

theorem bumpKey_keys_nodup (m : List (String × Fused)) (k : String)
    (r : RetrievalResult) (inc : ℚ) (hnd : (m.map Prod.fst).Nodup) :
    ((bumpKey m k r inc).map Prod.fst).Nodup := by
  cases h : alookup m k with
  | some f₀ => rw [bumpKey_keys m k r inc f₀ h]; exact hnd
  | none =>
      rw [bumpKey, h, List.map_append]
      have : k ∉ m.map Prod.fst := (alookup_eq_none _ _).mp h
      simp [List.nodup_append, hnd, this]

theorem vectorPass_alookup (vs : List RetrievalResult) :
    ∀ (m : List (String × Fused)) (k : ℕ) (c : String),
      (m.map Prod.fst).Nodup →
      alookup (vectorPass m vs k) c =
        match alookup m c with
        | some f =>
            some ⟨f.result, f.score + vSumContrib c vs (60 + (k : ℚ) + 1)⟩
        | none =>
            match firstWith c vs with
            | some r => some ⟨r, vSumContrib c vs (60 + (k : ℚ) + 1)⟩
            | none => none := by
  induction vs with
  | nil =>
      intro m k c _
      cases hm : alookup m c with
      | some f => simp [vectorPass, hm, vSumContrib]
      | none => simp [vectorPass, hm, vSumContrib, firstWith]
  | cons r vs ih =>
      intro m k c hnd
      have hcast : 60 + ((k + 1 : ℕ) : ℚ) + 1 = (60 + (k : ℚ) + 1) + 1 := by
        push_cast; ring
      rw [vectorPass]
      cases hab : alookup m r.content with
      | some f₀ =>
          have hk2 : ((bumpKey m r.content r (1 / (60 + (k : ℚ) + 1))).map
              Prod.fst).Nodup := bumpKey_keys_nodup _ _ _ _ hnd
          rw [ih _ (k + 1) c hk2, hcast,
            bumpKey_alookup_some m r.content r _ f₀ hnd hab c]
          by_cases hc : r.content = c
          · have hmc : alookup m c = some f₀ := hc ▸ hab
            have h1 : vSumContrib c (r :: vs) (60 + (k : ℚ) + 1) =
                1 / (60 + (k : ℚ) + 1) +
                  vSumContrib c vs ((60 + (k : ℚ) + 1) + 1) := by
              rw [show vSumContrib c (r :: vs) (60 + (k : ℚ) + 1) =
                  (if r.content = c then 1 / (60 + (k : ℚ) + 1) else 0) +
                    vSumContrib c vs ((60 + (k : ℚ) + 1) + 1) from rfl,
                if_pos hc]
            rw [if_pos hc, hmc]
            show some (Fused.mk f₀.result ((f₀.score + 1 / (60 + (k : ℚ) + 1)) +
                vSumContrib c vs ((60 + (k : ℚ) + 1) + 1))) =
              some (Fused.mk f₀.result (f₀.score +
                vSumContrib c (r :: vs) (60 + (k : ℚ) + 1)))
            rw [h1, Option.some.injEq, Fused.mk.injEq]
            exact ⟨rfl, by ring⟩
          · have h1 : vSumContrib c (r :: vs) (60 + (k : ℚ) + 1) =
                vSumContrib c vs ((60 + (k : ℚ) + 1) + 1) := by
              rw [show vSumContrib c (r :: vs) (60 + (k : ℚ) + 1) =
                  (if r.content = c then 1 / (60 + (k : ℚ) + 1) else 0) +
                    vSumContrib c vs ((60 + (k : ℚ) + 1) + 1) from rfl,
                if_neg hc, zero_add]
            have h2 : firstWith c (r :: vs) = firstWith c vs := by
              rw [show firstWith c (r :: vs) =
                  (if r.content = c then some r else firstWith c vs) from rfl,
                if_neg hc]
            rw [if_neg hc, h1, h2]
      | none =>
          have hnotin : r.content ∉ m.map Prod.fst :=
            (alookup_eq_none _ _).mp hab
          have hk2 : ((bumpKey m r.content r (1 / (60 + (k : ℚ) + 1))).map
              Prod.fst).Nodup := bumpKey_keys_nodup _ _ _ _ hnd
          rw [ih _ (k + 1) c hk2, hcast,
            bumpKey_alookup_none m r.content r _ hab c]
          by_cases hc : r.content = c
          · have hmc : alookup m c = none := hc ▸ hab
            have h1 : vSumContrib c (r :: vs) (60 + (k : ℚ) + 1) =
                1 / (60 + (k : ℚ) + 1) +
                  vSumContrib c vs ((60 + (k : ℚ) + 1) + 1) := by
              rw [show vSumContrib c (r :: vs) (60 + (k : ℚ) + 1) =
                  (if r.content = c then 1 / (60 + (k : ℚ) + 1) else 0) +
                    vSumContrib c vs ((60 + (k : ℚ) + 1) + 1) from rfl,
                if_pos hc]
            have h2 : firstWith c (r :: vs) = some r := by
              rw [show firstWith c (r :: vs) =
                  (if r.content = c then some r else firstWith c vs) from rfl,
                if_pos hc]
            rw [if_pos hc, hmc]
            show some (Fused.mk r (1 / (60 + (k : ℚ) + 1) +
                vSumContrib c vs ((60 + (k : ℚ) + 1) + 1))) =
              (match firstWith c (r :: vs) with
               | some r2 => some (Fused.mk r2
                   (vSumContrib c (r :: vs) (60 + (k : ℚ) + 1)))
               | none => none)
            rw [h2, h1]
          · have h1 : vSumContrib c (r :: vs) (60 + (k : ℚ) + 1) =
                vSumContrib c vs ((60 + (k : ℚ) + 1) + 1) := by
              rw [show vSumContrib c (r :: vs) (60 + (k : ℚ) + 1) =
                  (if r.content = c then 1 / (60 + (k : ℚ) + 1) else 0) +
                    vSumContrib c vs ((60 + (k : ℚ) + 1) + 1) from rfl,
                if_neg hc, zero_add]
            have h2 : firstWith c (r :: vs) = firstWith c vs := by
              rw [show firstWith c (r :: vs) =
                  (if r.content = c then some r else firstWith c vs) from rfl,
                if_neg hc]
            rw [if_neg hc, h1, h2]

theorem fusedList_alookup (g v : List RetrievalResult) (c : String) :
    alookup (fusedList g v) c = fusedSpec g v c := by
  have hnd : ((graphPass [] g 0).map Prod.fst).Nodup :=
    (WFmap_graphPass g [] 0 ⟨List.nodup_nil, by simp⟩).1
  rw [fusedList, vectorPass_alookup v _ 0 c hnd, graphPass_alookup g [] 0 c]
  have h61 : 60 + ((0 : ℕ) : ℚ) + 1 = 61 := by norm_num
  rw [h61]
  cases hg : gLastContrib c g 61 with
  | some rq => simp [fusedSpec, hg]
  | none => simp [fusedSpec, hg, alookup]

/-! Sortedness and stability of the fused sort -/

theorem insBy_pairwise (x : Fused) (l : List Fused)
    (h : List.Pairwise (fun a b : Fused => b.score ≤ a.score) l) :
    List.Pairwise (fun a b : Fused => b.score ≤ a.score) (insBy fusedLe x l) := by
  induction l with
  | nil => simp [insBy]
  | cons y l ih =>
      rcases List.pairwise_cons.mp h with ⟨hy, hl⟩
      by_cases hle : fusedLe x y = true
      · have hxy : y.score ≤ x.score := of_decide_eq_true hle
        rw [insBy, if_pos hle]
        refine List.pairwise_cons.mpr ⟨?_, h⟩
        intro b hb
        rcases List.mem_cons.mp hb with hb | hb
        · rw [hb]; exact hxy
        · exact (hy b hb).trans hxy
      · have hxy : x.score ≤ y.score :=
          le_of_not_le (fun hc => hle (decide_eq_true hc))
        rw [insBy, if_neg hle]
        refine List.pairwise_cons.mpr ⟨?_, ih hl⟩
        intro b hb
        have hb2 : b ∈ x :: l := (insBy_perm fusedLe x l).mem_iff.mp hb
        rcases List.mem_cons.mp hb2 with hb2 | hb2
        · rw [hb2]; exact hxy
        · exact hy b hb2

theorem sortBy_pairwise_fused (l : List Fused) :
    List.Pairwise (fun a b : Fused => b.score ≤ a.score) (sortBy fusedLe l) := by
  induction l with
  | nil => simp [sortBy]
  | cons x l ih => exact insBy_pairwise x _ ih

theorem insBy_filter_ne (x : Fused) (l : List Fused) (s : ℚ)
    (hx : ¬ x.score = s) :
    (insBy fusedLe x l).filter (fun f => f.score = s) =
      l.filter (fun f => f.score = s) := by
  induction l with
  | nil => simp [insBy, List.filter_cons, hx]
  | cons y l ih =>
      by_cases hle : fusedLe x y = true
      · rw [insBy, if_pos hle, List.filter_cons, if_neg (by simpa using hx)]
      · rw [insBy, if_neg hle, List.filter_cons, List.filter_cons, ih]

theorem insBy_filter_eq (x : Fused) (l : List Fused) (s : ℚ)
    (hx : x.score = s)
    (hsort : List.Pairwise (fun a b : Fused => b.score ≤ a.score) l) :
    (insBy fusedLe x l).filter (fun f => f.score = s) =
      x :: l.filter (fun f => f.score = s) := by
  induction l with
  | nil => simp [insBy, List.filter_cons, hx]
  | cons y l ih =>
      rcases List.pairwise_cons.mp hsort with ⟨hy, hl⟩
      by_cases hle : fusedLe x y = true
      · rw [insBy, if_pos hle, List.filter_cons, if_pos (by simpa using hx)]
      · have hxy : x.score < y.score :=
          not_le.mp (fun hc => hle (decide_eq_true hc))
        have hys : ¬ y.score = s := by
          intro he
          rw [hx] at hxy
          rw [he] at hxy
          exact lt_irrefl s hxy
        rw [insBy, if_neg hle, List.filter_cons, if_neg (by simpa using hys),
          ih hl, List.filter_cons, if_neg (by simpa using hys)]

theorem sortBy_filter_score (l : List Fused) (s : ℚ) :
    (sortBy fusedLe l).filter (fun f => f.score = s) =
      l.filter (fun f => f.score = s) := by
  induction l with
  | nil => rfl
  | cons x l ih =>
      rw [sortBy]
      by_cases hx : x.score = s
      · rw [insBy_filter_eq x _ s hx (sortBy_pairwise_fused l), ih,
          List.filter_cons, if_pos (by simpa using hx)]
      · rw [insBy_filter_ne x _ s hx, ih, List.filter_cons,
          if_neg (by simpa using hx)]

theorem alookup_of_mem_nodup {α : Type} (m : List (String × α))
    (hnd : (m.map Prod.fst).Nodup) (k : String) (v : α)
    (hm : (k, v) ∈ m) : alookup m k = some v := by
  induction m with
  | nil => simp at hm
  | cons p m ih =>
      simp only [List.map_cons, List.nodup_cons] at hnd
      rcases List.mem_cons.mp hm with hm | hm
      · rw [← hm, alookup, if_pos rfl]
      · have hp : ¬ p.1 = k := by
          intro he
          exact hnd.1 (he ▸ List.mem_map_of_mem Prod.fst hm)
        rw [alookup, if_neg hp]
        exact ih hnd.2 hm

/-- Every fused value looks itself up under its content. -/
theorem fused_mem_alookup (g v : List RetrievalResult) (f : Fused)
    (hf : f ∈ (fusedList g v).map (·.2)) :
    alookup (fusedList g v) f.result.content = some f := by
  obtain ⟨p, hp, hpf⟩ := List.mem_map.mp hf
  have hwf := WFmap_fusedList g v
  have hkey : f.result.content = p.1 := hpf ▸ hwf.2 p hp
  rw [hkey]
  exact alookup_of_mem_nodup _ hwf.1 p.1 f
    (by rw [← hpf]; exact hp)

theorem fused_mem_specScore (g v : List RetrievalResult) (f : Fused)
    (hf : f ∈ (fusedList g v).map (·.2)) :
    specScore g v f.result.content = f.score := by
  rw [specScore, ← fusedList_alookup, fused_mem_alookup g v f hf]

/-! Fairness arithmetic -/

theorem gLastContrib_none (c : String) (rs : List RetrievalResult) :
    ∀ d : ℚ, c ∉ rs.map (·.content) → gLastContrib c rs d = none := by
  induction rs with
  | nil => intro d _; rfl
  | cons r rs ih =>
      intro d h
      simp only [List.map_cons, List.mem_cons] at h
      push_neg at h
      rw [gLastContrib, ih (d + 1) h.2, if_neg (fun he => h.1 he.symm)]

theorem gLastContrib_head (c : String) (r : RetrievalResult)
    (t : List RetrievalResult) (d : ℚ) (hr : r.content = c)
    (ht : c ∉ t.map (·.content)) :
    gLastContrib c (r :: t) d = some (r, 1 / d) := by
  rw [gLastContrib, gLastContrib_none c t (d + 1) ht, if_pos hr]

theorem gLastContrib_pos (c : String) (rs : List RetrievalResult) :
    ∀ (d : ℚ) (r : RetrievalResult) (q : ℚ), 0 < d →
      gLastContrib c rs d = some (r, q) → 0 < q := by
  induction rs with
  | nil => intro d r q _ h; exact absurd h (by simp [gLastContrib])
  | cons x rs ih =>
      intro d r q hd h
      rw [gLastContrib] at h
      cases ht : gLastContrib c rs (d + 1) with
      | some y =>
          rw [ht] at h
          have := ih (d + 1) y.1 y.2 (by linarith) (by rw [ht])
          have hy : y = (r, q) := by
            have := h
            simp only [Option.some.injEq] at this
            exact this
          rw [hy] at this
          exact this
      | none =>
          rw [ht] at h
          by_cases hc : x.content = c
          · rw [if_pos hc] at h
            simp only [Option.some.injEq, Prod.mk.injEq] at h
            rw [← h.2]
            exact one_div_pos.mpr hd
          · rw [if_neg hc] at h
            exact absurd h (by simp)

theorem gLastContrib_isSome_of_head (c : String) (r : RetrievalResult)
    (t : List RetrievalResult) (d : ℚ) (hr : r.content = c) :
    ∃ x q, gLastContrib c (r :: t) d = some (x, q) := by
  rw [gLastContrib]
  cases ht : gLastContrib c t (d + 1) with
  | some y => exact ⟨y.1, y.2, rfl⟩
  | none => exact ⟨r, 1 / d, by rw [if_pos hr]⟩

theorem vSumContrib_nonneg (c : String) (vs : List RetrievalResult) :
    ∀ d : ℚ, 0 < d → 0 ≤ vSumContrib c vs d := by
  induction vs with
  | nil => intro d _; exact le_refl 0
  | cons r vs ih =>
      intro d hd
      rw [vSumContrib]
      have h1 : (0 : ℚ) ≤ (if r.content = c then 1 / d else 0) := by
        by_cases hc : r.content = c
        · rw [if_pos hc]; positivity
        · rw [if_neg hc]
      have h2 := ih (d + 1) (by linarith)
      linarith

theorem vSumContrib_head_ge (c : String) (r : RetrievalResult)
    (t : List RetrievalResult) (d : ℚ) (hr : r.content = c) (hd : 0 < d) :
    1 / d ≤ vSumContrib c (r :: t) d := by
  rw [vSumContrib, if_pos hr]
  have := vSumContrib_nonneg c t (d + 1) (by linarith)
  linarith

theorem vSumContrib_zero (c : String) (vs : List RetrievalResult) :
    ∀ d : ℚ, c ∉ vs.map (·.content) → vSumContrib c vs d = 0 := by
  induction vs with
  | nil => intro d _; rfl
  | cons r vs ih =>
      intro d h
      simp only [List.map_cons, List.mem_cons] at h
      push_neg at h
      rw [vSumContrib, if_neg (fun he => h.1 he.symm), ih (d + 1) h.2,
        zero_add]

/-! First-seen key order -/

theorem firstSeen_append (l₁ l₂ : List String) :
    ∀ acc, firstSeen acc (l₁ ++ l₂) = firstSeen (firstSeen acc l₁) l₂ := by
  induction l₁ with
  | nil => intro acc; rfl
  | cons c l₁ ih => intro acc; rw [List.cons_append, firstSeen, firstSeen, ih]

theorem graphPass_keys (rs : List RetrievalResult) :
    ∀ (m : List (String × Fused)) (k : ℕ),
      (graphPass m rs k).map Prod.fst =
        firstSeen (m.map Prod.fst) (rs.map (·.content)) := by
  induction rs with
  | nil => intro m k; rfl
  | cons r rs ih =>
      intro m k
      rw [graphPass, ih _ (k + 1), List.map_cons, firstSeen]
      by_cases hmem : r.content ∈ m.map Prod.fst
      · rw [mapSet_keys_of_mem m _ _ hmem, if_pos hmem]
      · rw [mapSet_keys_of_not_mem m _ _ hmem, if_neg hmem]

theorem bumpKey_keys_eq (m : List (String × Fused)) (k : String)
    (r : RetrievalResult) (inc : ℚ) :
    (bumpKey m k r inc).map Prod.fst =
      if k ∈ m.map Prod.fst then m.map Prod.fst
      else m.map Prod.fst ++ [k] := by
  cases h : alookup m k with
  | some f₀ =>
      have hmem : k ∈ m.map Prod.fst := by
        by_contra hmem
        rw [(alookup_eq_none m k).mpr hmem] at h
        exact absurd h (by simp)
      rw [bumpKey_keys m k r inc f₀ h, if_pos hmem]
  | none =>
      have hmem : k ∉ m.map Prod.fst := (alookup_eq_none _ _).mp h
      rw [bumpKey, h, List.map_append, if_neg hmem]
      rfl

theorem vectorPass_keys (vs : List RetrievalResult) :
    ∀ (m : List (String × Fused)) (k : ℕ),
      (vectorPass m vs k).map Prod.fst =
        firstSeen (m.map Prod.fst) (vs.map (·.content)) := by
  induction vs with
  | nil => intro m k; rfl
  | cons r vs ih =>
      intro m k
      rw [vectorPass, ih _ (k + 1), List.map_cons, firstSeen,
        bumpKey_keys_eq]

/-- C5 (corrected).  The fused score of a content string is: the LAST graph
occurrence's `1/(60 + rank + 1)` (earlier graph occurrences of the same
content are overwritten by `Map.set`, not summed) plus the sum of ALL its
vector contributions `1/(60 + rank + 1)`.  The map keys are the distinct
contents in first-seen order, graph list first; the output is the fused
entries sorted by descending fused score, ties (equal scores) kept in that
first-seen order; and a content at rank 0 of both lists scores strictly
higher than a content appearing only at rank 0 of exactly one list. -/
theorem rrf_fusion_semantics (g v : List RetrievalResult) :
    (∀ c, alookup (fusedList g v) c = fusedSpec g v c) ∧
    ((fusedList g v).map Prod.fst =
      firstSeen [] (g.map (·.content) ++ v.map (·.content))) ∧
    (reciprocalRankFusion g v).Pairwise
      (fun a b => specScore g v b.content ≤ specScore g v a.content) ∧
    (∀ s : ℚ, (reciprocalRankFusion g v).filter
        (fun r => specScore g v r.content = s) =
      ((fusedList g v).map (fun p => p.2.result)).filter
        (fun r => specScore g v r.content = s)) ∧
    (∀ (g₂ v₂ : List RetrievalResult) (gx vx : RetrievalResult)
        (c d : String),
      g.head? = some gx → v.head? = some vx →
      gx.content = c → vx.content = c →
      ((∃ gy t, g₂ = gy :: t ∧ gy.content = d ∧ d ∉ t.map (·.content) ∧
          d ∉ v₂.map (·.content)) ∨
       (∃ vy t, v₂ = vy :: t ∧ vy.content = d ∧ d ∉ t.map (·.content) ∧
          d ∉ g₂.map (·.content))) →
      ∃ f₁ f₂, fusedSpec g v c = some f₁ ∧ fusedSpec g₂ v₂ d = some f₂ ∧
        f₂.score < f₁.score) := by
  refine ⟨fusedList_alookup g v, ?_, ?_, ?_, ?_⟩
  · rw [fusedList, vectorPass_keys, graphPass_keys, firstSeen_append]
    rfl
  · rw [reciprocalRankFusion, List.pairwise_map]
    refine List.Pairwise.imp_of_mem ?_
      (sortBy_pairwise_fused ((fusedList g v).map (·.2)))
    intro a b ha hb hab
    have ha2 : a ∈ (fusedList g v).map (·.2) :=
      (sortBy_perm fusedLe _).mem_iff.mp ha
    have hb2 : b ∈ (fusedList g v).map (·.2) :=
      (sortBy_perm fusedLe _).mem_iff.mp hb
    rw [fused_mem_specScore g v a ha2, fused_mem_specScore g v b hb2]
    exact hab
  · intro s
    have hr : reciprocalRankFusion g v =
        (sortBy fusedLe ((fusedList g v).map (·.2))).map (·.result) := rfl
    have hmm : (fusedList g v).map (fun p => p.2.result) =
        ((fusedList g v).map (·.2)).map (·.result) := by
      rw [List.map_map]
      rfl
    rw [hr, hmm, List.filter_map, List.filter_map]
    congr 1
    have h1 : (sortBy fusedLe ((fusedList g v).map (·.2))).filter
        ((fun r => decide (specScore g v r.content = s)) ∘ (·.result)) =
        (sortBy fusedLe ((fusedList g v).map (·.2))).filter
          (fun f => f.score = s) := by
      refine List.filter_congr ?_
      intro f hf
      have hf2 : f ∈ (fusedList g v).map (·.2) :=
        (sortBy_perm fusedLe _).mem_iff.mp hf
      simp only [Function.comp_apply, fused_mem_specScore g v f hf2,
        decide_eq_decide]
    have h2 : ((fusedList g v).map (·.2)).filter
        ((fun r => decide (specScore g v r.content = s)) ∘ (·.result)) =
        ((fusedList g v).map (·.2)).filter (fun f => f.score = s) := by
      refine List.filter_congr ?_
      intro f hf
      simp only [Function.comp_apply, fused_mem_specScore g v f hf,
        decide_eq_decide]
    rw [h1, sortBy_filter_score, ← h2]
  · rintro g₂ v₂ gx vx c d hg hv hgc hvc hcase
    obtain ⟨gt, hgt⟩ : ∃ t, g = gx :: t := by
      cases g with
      | nil => simp at hg
      | cons a t =>
          simp only [List.head?] at hg
          exact ⟨t, by rw [(Option.some.injEq _ _).mp hg.symm]⟩
    obtain ⟨vt, hvt⟩ : ∃ t, v = vx :: t := by
      cases v with
      | nil => simp at hv
      | cons a t =>
          simp only [List.head?] at hv
          exact ⟨t, by rw [(Option.some.injEq _ _).mp hv.symm]⟩
    obtain ⟨x, q, hxq⟩ :=
      gLastContrib_isSome_of_head c gx gt 61 hgc
    have hq : 0 < q := by
      rw [hgt] at *
      exact gLastContrib_pos c (gx :: gt) 61 x q (by norm_num) hxq
    have hvsum : 1 / 61 ≤ vSumContrib c v 61 := by
      rw [hvt]
      exact vSumContrib_head_ge c vx vt 61 hvc (by norm_num)
    refine ⟨⟨x, q + vSumContrib c v 61⟩, ?_⟩
    have hf1 : fusedSpec g v c = some ⟨x, q + vSumContrib c v 61⟩ := by
      rw [fusedSpec, hgt, hxq]
    rcases hcase with ⟨gy, t, hg2, hgyd, hdt, hdv⟩ | ⟨vy, t, hv2, hvyd, hdt, hdg⟩
    · refine ⟨⟨gy, 1 / 61 + vSumContrib d v₂ 61⟩, hf1, ?_, ?_⟩
      · rw [fusedSpec, hg2, gLastContrib_head d gy t 61 hgyd hdt]
      · have : vSumContrib d v₂ 61 = 0 := vSumContrib_zero d v₂ 61 hdv
        simp only [this, add_zero]
        have : (1 : ℚ) / 61 < q + vSumContrib c v 61 := by linarith
        exact this
    · refine ⟨⟨vy, vSumContrib d v₂ 61⟩, hf1, ?_, ?_⟩
      · rw [fusedSpec, gLastContrib_none d g₂ 61 hdg, hv2, firstWith,
          if_pos hvyd]
      · have hv0 : vSumContrib d t 62 = 0 := vSumContrib_zero d t 62 hdt
        rw [hv2, vSumContrib, if_pos hvyd]
        have h62 : (61 : ℚ) + 1 = 62 := by norm_num
        rw [h62, hv0, add_zero]
        have : (1 : ℚ) / 61 < q + vSumContrib c v 61 := by linarith
        exact this

/-- C5 witness: the fairness comparison at concrete one-element lists. -/
theorem rrf_fusion_semantics_witness :
    ∃ f₁ f₂, fusedSpec [rX1] [⟨"x", .vector, 1⟩] "x" = some f₁ ∧
      fusedSpec [rY] [] "y" = some f₂ ∧ f₂.score < f₁.score :=
  (rrf_fusion_semantics [rX1] [⟨"x", .vector, 1⟩]).2.2.2.2 [rY] []
    rX1 ⟨"x", .vector, 1⟩ "x" "y" rfl rfl rfl rfl
    (Or.inl ⟨rY, [], rfl, rfl, by simp, by simp⟩)

/-- C5 counterexample.  With graph contents `x, y, x` (and no vector list),
the code's `Map.set` OVERWRITES `x`'s rank-0 contribution with its rank-2
one, so `x` scores `1/63` and is ordered after `y` (`1/62`); under the
claimed summation `x` would score `1/61 + 1/63 > 1/62` and come first.  The
observable output order `["y", "x"]` therefore contradicts the claimed
"sum contributions per appearance" semantics. -/
theorem rrf_graph_duplicate_not_summed :
    (reciprocalRankFusion [rX1, rY, rX2] []).map (·.content) = ["y", "x"] ∧
    (1 / 62 : ℚ) < 1 / 61 + 1 / 63 := by
  constructor
  · norm_num [reciprocalRankFusion, fusedList, graphPass, vectorPass, mapSet,
      rX1, rY, rX2, sortBy, insBy, fusedLe]
  · norm_num

/-! ## C9: empty-result edge cases -/

theorem countTokens_eq_zero (c : String) : countTokens c = 0 ↔ c = "" := by
  rw [countTokens]
  constructor
  · intro h
    have : c.length = 0 := by omega
    exact String.ext (List.length_eq_zero.mp this)
  · intro h
    rw [h]
    rfl

theorem selectAux_nonpos (rs : List RetrievalResult) (b : ℚ) (hb : b ≤ 0) :
    selectAux b rs = (rs.filter
      (fun r => (countTokens r.content : ℚ) ≤ b)).map (·.content) := by
  induction rs with
  | nil => rfl
  | cons r rs ih =>
      by_cases h : (countTokens r.content : ℚ) ≤ b
      · have h0 : (countTokens r.content : ℚ) = 0 :=
          le_antisymm (h.trans hb) (Nat.cast_nonneg _)
        rw [selectAux, if_pos h, List.filter_cons, if_pos (by simpa using h),
          List.map_cons, h0, sub_zero, ih]
      · rw [selectAux, if_neg h, List.filter_cons, if_neg (by simpa using h),
          ih]

/-- C9 (confirmed).  `retrieve` returns the empty string whenever the token
budget is ≤ 0 — budget selection can then only admit zero-token (empty)
contents, and since fusion de-duplicates by content at most one such item
exists — and also whenever both the graph and the vector search produce no
results. -/
theorem retrieve_empty_cases :
    ∀ (p : Provider) (st : Stores) (q : String) (b : ℚ),
      (b ≤ 0 → retrieve p st q b = "") ∧
      (graphSearch st.graph = [] → vsearch p st.vectors q 10 = [] →
        retrieve p st q b = "") := by
  intro p st q b
  constructor
  · intro hb
    rw [retrieve, selectWithinBudget, selectAux_nonpos _ _ hb]
    set out := reciprocalRankFusion (graphSearch st.graph)
      (vectorSearchResults p st.vectors q) with hout
    have hnd : (out.map (·.content)).Nodup := rrf_contents_nodup _ _
    set sel := (out.filter
      (fun r => (countTokens r.content : ℚ) ≤ b)).map (·.content) with hselDef
    have hall : ∀ s ∈ sel, s = "" := by
      intro s hs
      obtain ⟨r, hr, hrc⟩ := List.mem_map.mp hs
      have hrf := (List.mem_filter.mp hr).2
      have h1 : (countTokens r.content : ℚ) ≤ b := by simpa using hrf
      have h0 : countTokens r.content = 0 := by
        have := le_antisymm (h1.trans hb) (Nat.cast_nonneg _)
        exact_mod_cast this
      rw [← hrc]
      exact (countTokens_eq_zero _).mp h0
    have hsub : sel.Sublist (out.map (·.content)) :=
      (List.filter_sublist _).map _
    have hselnd : sel.Nodup := hsub.nodup hnd
    match hsel : sel with
    | [] => rfl
    | [s] =>
        have : s = "" := hall s (by rw [hsel]; exact List.mem_singleton_self s)
        rw [this]
        rfl
    | s :: s2 :: t =>
        have h1 : s = "" := hall s (by rw [hsel]; simp)
        have h2 : s2 = "" := hall s2 (by rw [hsel]; simp)
        rw [hsel] at hselnd
        exact absurd (h1.trans h2.symm) (by
          intro he
          exact (List.nodup_cons.mp hselnd).1 (he ▸ List.mem_cons_self s2 t))
  · intro hg hv
    rw [retrieve, hg, vectorSearchResults, hv]
    rfl

/-- C9 witness: a zero budget over a non-empty store yields `""`. -/
theorem retrieve_empty_cases_witness :
    retrieve pFail ⟨GraphIM.empty, rows1⟩ "hello" 0 = "" :=
  (retrieve_empty_cases pFail ⟨GraphIM.empty, rows1⟩ "hello" 0).1 le_rfl

/-! ## C3: traversal semantics

`ball` lemmas, then full correctness of the BFS `traverse` (a node is
returned iff it exists, passes the filter, and lies within graph distance
`depth`), and soundness of the DFS `traverse` (which can MISS nodes within
`depth` — see the counterexample). -/

theorem start_mem_ball (E : List GraphEdge) (s : String) (k : ℕ) :
    s ∈ ball E s k := by
  induction k with
  | zero => simp [ball]
  | succ k ih => exact List.mem_append_left _ ih

theorem ball_sub_succ (E : List GraphEdge) (s : String) (k : ℕ) :
    ∀ x ∈ ball E s k, x ∈ ball E s (k + 1) :=
  fun _x hx => List.mem_append_left _ hx

theorem mem_ball_mono (E : List GraphEdge) (s : String) {k k' : ℕ}
    (h : k ≤ k') {x : String} (hx : x ∈ ball E s k) : x ∈ ball E s k' := by
  induction k' with
  | zero => exact (Nat.le_zero.mp h) ▸ hx
  | succ k' ih =>
      rcases Nat.lt_or_ge k (k' + 1) with h1 | h1
      · exact ball_sub_succ E s k' x (ih (Nat.lt_succ_iff.mp h1))
      · exact (Nat.le_antisymm h h1) ▸ hx

theorem adj_ball (E : List GraphEdge) (s : String) {k : ℕ} {x y : String}
    (hx : x ∈ ball E s k) (hy : y ∈ adjacentIds E x) :
    y ∈ ball E s (k + 1) :=
  List.mem_append_right _ (List.mem_flatMap.mpr ⟨x, hx, hy⟩)

theorem ball_struct (E : List GraphEdge) (s : String) {k : ℕ} {z : String}
    (hz : z ∈ ball E s (k + 1)) :
    z ∈ ball E s k ∨ ∃ p ∈ ball E s k, z ∈ adjacentIds E p := by
  rcases List.mem_append.mp hz with h | h
  · exact Or.inl h
  · obtain ⟨p, hp, hzp⟩ := List.mem_flatMap.mp h
    exact Or.inr ⟨p, hp, hzp⟩

theorem ball_sub_of_closed (E : List GraphEdge) (s : String) (d : ℕ)
    (P : String → Prop)
    (hc : ∀ x, P x → ∀ z ∈ adjacentIds E x, P z)
    (hb : ∀ z ∈ ball E s d, P z) :
    ∀ k, ∀ z ∈ ball E s k, P z := by
  intro k
  induction k with
  | zero =>
      intro z hz
      have : z = s := by simpa [ball] using hz
      exact this ▸ hb s (start_mem_ball E s d)
  | succ k ih =>
      intro z hz
      rcases ball_struct E s hz with h | ⟨p, hp, hzp⟩
      · exact ih z h
      · exact hc p (ih p hp) z hzp

theorem length_filter_mono {α : Type} (U : List α) (p q : α → Prop)
    [DecidablePred p] [DecidablePred q] (himp : ∀ a, q a → p a) :
    (U.filter (fun a => q a)).length ≤ (U.filter (fun a => p a)).length := by
  induction U with
  | nil => exact le_refl 0
  | cons a U ih =>
      by_cases hq : q a
      · rw [List.filter_cons, if_pos (by simpa using hq),
          List.filter_cons, if_pos (by simpa using himp a hq)]
        simpa using ih
      · rw [List.filter_cons, if_neg (by simpa using hq)]
        by_cases hp : p a
        · rw [List.filter_cons, if_pos (by simpa using hp)]
          exact ih.trans (by simp)
        · rw [List.filter_cons, if_neg (by simpa using hp)]
          exact ih

theorem length_filter_lt {α : Type} (U : List α) (p q : α → Prop)
    [DecidablePred p] [DecidablePred q] (himp : ∀ a, q a → p a) (x : α)
    (hxU : x ∈ U) (hpx : p x) (hqx : ¬ q x) :
    (U.filter (fun a => q a)).length < (U.filter (fun a => p a)).length := by
  induction U with
  | nil => simp at hxU
  | cons a U ih =>
      rcases List.mem_cons.mp hxU with rfl | haU
      · rw [List.filter_cons, if_neg (by simpa using hqx),
          List.filter_cons, if_pos (by simpa using hpx)]
        exact Nat.lt_succ_of_le (length_filter_mono U p q himp)
      · by_cases hq : q a
        · rw [List.filter_cons, if_pos (by simpa using hq),
            List.filter_cons, if_pos (by simpa using himp a hq)]
          simpa using ih haU
        · rw [List.filter_cons, if_neg (by simpa using hq)]
          by_cases hp : p a
          · rw [List.filter_cons, if_pos (by simpa using hp)]
            exact (ih haU).trans (by simp)
          · rw [List.filter_cons, if_neg (by simpa using hp)]
            exact ih haU

theorem endpoints_mem_foldr (es : List GraphEdge) (e : GraphEdge)
    (he : e ∈ es) :
    e.source ∈ es.foldr (fun f acc => f.source :: f.target :: acc) [] ∧
    e.target ∈ es.foldr (fun f acc => f.source :: f.target :: acc) [] := by
  induction es with
  | nil => simp at he
  | cons f es ih =>
      rcases List.mem_cons.mp he with rfl | he2
      · constructor <;> simp [List.foldr_cons]
      · have := ih he2
        constructor <;>
          · simp only [List.foldr_cons, List.mem_cons]
            right; right
            first
            | exact this.1
            | exact this.2

theorem endpoints_mem_universe (g : GraphSQL) (s : String) :
    ∀ e ∈ g.edges, e.source ∈ idUniverse g s ∧ e.target ∈ idUniverse g s := by
  intro e he
  have := endpoints_mem_foldr g.edges e he
  exact ⟨List.mem_cons_of_mem s this.1, List.mem_cons_of_mem s this.2⟩

theorem adj_mem_universe (g : GraphSQL) (s : String) (x z : String)
    (hz : z ∈ adjacentIds g.edges x) : z ∈ idUniverse g s := by
  obtain ⟨e, he, hze⟩ := List.mem_map.mp hz
  have he2 := List.mem_filter.mp he
  have := endpoints_mem_universe g s e he2.1
  by_cases hsrc : e.source = x
  · rw [← hze]
    simp only [if_pos hsrc]
    exact this.2
  · rw [← hze]
    simp only [if_neg hsrc]
    exact this.1

theorem adjacentIds_length_le (E : List GraphEdge) (x : String) :
    (adjacentIds E x).length ≤ E.length := by
  rw [adjacentIds, List.length_map]
  exact List.length_filter_le _ E

/-- What the BFS loop body appends to the result on a fresh visit. -/
theorem filterMap_snoc (V : List String) (x : String)
    (f : String → Option GraphNode) :
    (V ++ [x]).filterMap f = V.filterMap f ++
      (match f x with | some n => [n] | none => []) := by
  rw [List.filterMap_append]
  cases hfx : f x <;> simp [List.filterMap, hfx]

/-- The BFS loop invariant, proved along a measure `M` that bounds
`fuel * (D + 2) + (D - d)`: the queue always splits into a level-`d` part
`q1` and a level-`d+1` part `q2`; queue entries are sound (within the ball
of their depth); every ball-`d` id is visited or still in `q1`; and every
visited id (below level `D`) has been expanded.  The conclusion
characterises the final visited set as `ball start D` relative to the
initial state. -/
theorem bfs_main (g : GraphSQL) (D : ℕ) (tf : Option (List NodeType))
    (start : String) :
    ∀ (M fuel : ℕ) (V : List String) (R : List GraphNode)
      (q1 q2 : List (String × ℕ)) (d : ℕ),
      fuel * (D + 2) + (D - d) ≤ M →
      (q1 ++ q2).length +
        ((idUniverse g start).filter (fun u => u ∉ V)).length *
          (1 + g.edges.length) ≤ fuel →
      (∀ p ∈ q1, p.2 = d) →
      (∀ p ∈ q2, p.2 = d + 1) →
      d ≤ D →
      (q2 ≠ [] → d < D) →
      (∀ p ∈ q1 ++ q2, p.1 ∈ idUniverse g start) →
      (∀ p ∈ q1, p.1 ∈ ball g.edges start d) →
      (∀ p ∈ q2, p.1 ∈ ball g.edges start (d + 1)) →
      (∀ x ∈ V, x ∈ ball g.edges start D) →
      (∀ z ∈ ball g.edges start d, z ∈ V ∨ z ∈ q1.map Prod.fst) →
      (d < D → ∀ x ∈ V, ∀ z ∈ adjacentIds g.edges x,
        z ∈ V ∨ z ∈ (q1 ++ q2).map Prod.fst) →
      V.Nodup →
      R = V.filterMap (nodeHit g tf) →
      (∀ z ∈ ball g.edges start D,
        z ∈ (bfsAux g D tf fuel (V, R, q1 ++ q2)).1) ∧
      (∀ x ∈ (bfsAux g D tf fuel (V, R, q1 ++ q2)).1,
        x ∈ V ∨ x ∈ ball g.edges start D) ∧
      (bfsAux g D tf fuel (V, R, q1 ++ q2)).1.Nodup ∧
      (bfsAux g D tf fuel (V, R, q1 ++ q2)).2 =
        (bfsAux g D tf fuel (V, R, q1 ++ q2)).1.filterMap (nodeHit g tf) := by
  intro M
  induction M using Nat.strong_induction_on with
  | _ M IH =>
  intro fuel V R q1 q2 d hM hfuel hd1 hd2 hdD hq2ne hQU hsq1 hsq2 hsV hcov
    hclos hndV hres
  have hdone : q1 = [] → q2 = [] → ∀ z ∈ ball g.edges start D, z ∈ V := by
    intro h1 h2
    rcases Nat.lt_or_ge d D with hdlt | hge
    · have hcl : ∀ x, x ∈ V → ∀ z ∈ adjacentIds g.edges x, z ∈ V := by
        intro x hx z hz
        rcases hclos hdlt x hx z hz with h | h
        · exact h
        · rw [h1, h2] at h
          simp at h
      have hbd : ∀ z ∈ ball g.edges start d, z ∈ V := by
        intro z hz
        rcases hcov z hz with h | h
        · exact h
        · rw [h1] at h
          simp at h
      exact fun z hz =>
        ball_sub_of_closed g.edges start d (· ∈ V) hcl hbd D z hz
    · have hdD2 : d = D := Nat.le_antisymm hdD hge
      intro z hz
      rcases hcov z (hdD2 ▸ hz) with h | h
      · exact h
      · rw [h1] at h
        simp at h
  cases q1 with
  | nil =>
      cases q2 with
      | nil =>
          have hrun : bfsAux g D tf fuel
              (V, R, ([] : List (String × ℕ)) ++ []) = (V, R) := by
            cases fuel <;> rfl
          rw [hrun]
          exact ⟨fun z hz => hdone rfl rfl z hz, fun x hx => Or.inl hx,
            hndV, hres⟩
      | cons p q2t =>
          have hdlt : d < D := hq2ne (by simp)
          have hM' : fuel * (D + 2) + (D - (d + 1)) < M := by
            generalize hA : fuel * (D + 2) = A at hM ⊢
            omega
          have hres2 := IH (fuel * (D + 2) + (D - (d + 1))) hM' fuel V R
            (p :: q2t) [] (d + 1) le_rfl
            (by simpa using hfuel)
            hd2 (by simp) hdlt (by simp)
            (by simpa using hQU)
            hsq2 (by simp) hsV
            (by
              intro z hz
              rcases ball_struct g.edges start hz with h | ⟨pp, hpp, hzp⟩
              · rcases hcov z h with h2 | h2
                · exact Or.inl h2
                · simp at h2
              · rcases hcov pp hpp with h2 | h2
                · rcases hclos hdlt pp h2 z hzp with h3 | h3
                  · exact Or.inl h3
                  · simpa using Or.inr h3
                · simp at h2)
            (by
              intro _ x hx z hz
              rcases hclos hdlt x hx z hz with h | h
              · exact Or.inl h
              · simpa using Or.inr h)
            hndV hres
          simpa using hres2
  | cons p q1t =>
      have hpd : p.2 = d := hd1 p (List.mem_cons_self p q1t)
      cases fuel with
      | zero =>
          exfalso
          have : (p :: q1t ++ q2).length = 0 := by omega
          simp at this
      | succ f =>
          have hqshape : (p :: q1t) ++ q2 = (p.1, d) :: (q1t ++ q2) := by
            rw [List.cons_append]
            congr 1
            rw [← hpd]
          have hMstep : f * (D + 2) + (D - d) < M := by
            have hab : (f + 1) * (D + 2) = f * (D + 2) + (D + 2) := by ring
            rw [hab] at hM
            generalize hA : f * (D + 2) = A at hM ⊢
            omega
          have hnotgt : ¬ d > D := not_lt.mpr hdD
          by_cases hxV : p.1 ∈ V
          · -- the dequeued id is already visited: the entry is dropped
            have hstep : bfsAux g D tf (f + 1) (V, R, (p.1, d) :: (q1t ++ q2)) =
                bfsAux g D tf f (V, R, q1t ++ q2) := by
              rw [bfsAux, if_pos (Or.inr hxV)]
            rw [hqshape, hstep]
            have hres2 := IH (f * (D + 2) + (D - d)) hMstep f V R q1t q2 d
              le_rfl
              (by
                generalize hA : ((idUniverse g start).filter
                  (fun u => u ∉ V)).length * (1 + g.edges.length) = A at hfuel ⊢
                simp only [List.length_append, List.length_cons] at hfuel ⊢
                omega)
              (fun q hq => hd1 q (List.mem_cons_of_mem p hq))
              hd2 hdD hq2ne
              (fun q hq => hQU q (by
                rcases List.mem_append.mp hq with h | h
                · exact List.mem_append_left _ (List.mem_cons_of_mem p h)
                · exact List.mem_append_right _ h))
              (fun q hq => hsq1 q (List.mem_cons_of_mem p hq))
              hsq2 hsV
              (by
                intro z hz
                rcases hcov z hz with h | h
                · exact Or.inl h
                · simp only [List.map_cons, List.mem_cons] at h
                  rcases h with h | h
                  · exact Or.inl (h ▸ hxV)
                  · exact Or.inr h)
              (by
                intro hdlt x hx z hz
                rcases hclos hdlt x hx z hz with h | h
                · exact Or.inl h
                · rw [hqshape] at h
                  simp only [List.map_cons, List.mem_cons] at h
                  rcases h with h | h
                  · exact Or.inl (h ▸ hxV)
                  · exact Or.inr h)
              hndV hres
            exact hres2
          · -- fresh visit
            have hguardF : ¬ (d > D ∨ p.1 ∈ V) := by
              rintro (h | h)
              · exact hnotgt h
              · exact hxV h
            have hpball : p.1 ∈ ball g.edges start d :=
              hsq1 p (List.mem_cons_self p q1t)
            have hpU : p.1 ∈ idUniverse g start :=
              hQU p (List.mem_append_left _ (List.mem_cons_self p q1t))
            set Vx := V ++ [p.1] with hVx
            set Rx := (match g.findNode p.1 with
              | some n => if typeOk tf n.type then R ++ [n] else R
              | none => R) with hRx
            set ps := ((adjacentIds g.edges p.1).filter
              (fun z => z ∉ Vx)).map (fun z => (z, d + 1)) with hps
            set qnew2 := (if d < D then q2 ++ ps else q2) with hqnew2
            have hqueue : (if d < D then
                (q1t ++ q2) ++ ps else (q1t ++ q2)) = q1t ++ qnew2 := by
              rw [hqnew2]
              by_cases hdlt : d < D
              · rw [if_pos hdlt, if_pos hdlt, List.append_assoc]
              · rw [if_neg hdlt, if_neg hdlt]
            have hstep : bfsAux g D tf (f + 1) (V, R, (p.1, d) :: (q1t ++ q2)) =
                bfsAux g D tf f (Vx, Rx, q1t ++ qnew2) := by
              rw [bfsAux, if_neg hguardF, ← hqueue]
            have hRx2 : Rx = Vx.filterMap (nodeHit g tf) := by
              rw [hVx, filterMap_snoc, ← hres, hRx]
              cases hfn : g.findNode p.1 with
              | some n =>
                  by_cases ht : typeOk tf n.type = true
                  · simp [nodeHit, hfn, ht]
                  · simp [nodeHit, hfn, ht]
              | none => simp [nodeHit, hfn]
            have hps_len : ps.length ≤ g.edges.length := by
              rw [hps, List.length_map]
              exact (List.length_filter_le _ _).trans
                (adjacentIds_length_le g.edges p.1)
            have hunvis : ((idUniverse g start).filter
                (fun u => u ∉ Vx)).length + 1 ≤
                ((idUniverse g start).filter (fun u => u ∉ V)).length := by
              have h := length_filter_lt (idUniverse g start)
                (fun u => u ∉ V) (fun u => u ∉ Vx)
                (fun a ha hmem => ha (List.mem_append_left _ hmem))
                p.1 hpU hxV
                (fun hc => hc (List.mem_append_right _ (by simp)))
              have h2 : ((idUniverse g start).filter
                  (fun u => u ∉ Vx)).length <
                  ((idUniverse g start).filter (fun u => u ∉ V)).length := by
                simpa using h
              omega
            have hres2 := IH (f * (D + 2) + (D - d)) hMstep f Vx Rx q1t qnew2 d
              le_rfl
              (by
                have hq2l : qnew2.length ≤ q2.length + ps.length := by
                  rw [hqnew2]
                  by_cases hdlt : d < D
                  · rw [if_pos hdlt]; simp
                  · rw [if_neg hdlt]; simp
                have hmul : ((idUniverse g start).filter
                    (fun u => u ∉ Vx)).length * (1 + g.edges.length) +
                    (1 + g.edges.length) ≤
                    ((idUniverse g start).filter
                      (fun u => u ∉ V)).length * (1 + g.edges.length) := by
                  calc ((idUniverse g start).filter
                      (fun u => u ∉ Vx)).length * (1 + g.edges.length) +
                      (1 + g.edges.length)
                      = (((idUniverse g start).filter
                        (fun u => u ∉ Vx)).length + 1) *
                          (1 + g.edges.length) := by ring
                    _ ≤ _ := Nat.mul_le_mul_right _ hunvis
                simp only [List.length_append, List.length_cons]
                  at hfuel ⊢
                generalize hA : ((idUniverse g start).filter
                  (fun u => u ∉ Vx)).length * (1 + g.edges.length) = A
                  at hmul ⊢
                generalize hB : ((idUniverse g start).filter
                  (fun u => u ∉ V)).length * (1 + g.edges.length) = B
                  at hmul hfuel
                omega)
              (fun q hq => hd1 q (List.mem_cons_of_mem p hq))
              (by
                intro q hq
                rw [hqnew2] at hq
                by_cases hdlt : d < D
                · rw [if_pos hdlt] at hq
                  rcases List.mem_append.mp hq with h | h
                  · exact hd2 q h
                  · obtain ⟨z, _, hzq⟩ := List.mem_map.mp (hps ▸ h)
                    rw [← hzq]
                · rw [if_neg hdlt] at hq
                  exact hd2 q hq)
              hdD
              (by
                intro hne
                rw [hqnew2] at hne
                by_cases hdlt : d < D
                · exact hdlt
                · rw [if_neg hdlt] at hne
                  exact hq2ne hne)
              (by
                intro q hq
                rcases List.mem_append.mp hq with h | h
                · exact hQU q (List.mem_append_left _
                    (List.mem_cons_of_mem p h))
                · rw [hqnew2] at h
                  by_cases hdlt : d < D
                  · rw [if_pos hdlt] at h
                    rcases List.mem_append.mp h with h2 | h2
                    · exact hQU q (List.mem_append_right _ h2)
                    · obtain ⟨z, hz, hzq⟩ := List.mem_map.mp (hps ▸ h2)
                      have hz2 := (List.mem_filter.mp hz).1
                      rw [← hzq]
                      exact adj_mem_universe g start p.1 z hz2
                  · rw [if_neg hdlt] at h
                    exact hQU q (List.mem_append_right _ h))
              (fun q hq => hsq1 q (List.mem_cons_of_mem p hq))
              (by
                intro q hq
                rw [hqnew2] at hq
                by_cases hdlt : d < D
                · rw [if_pos hdlt] at hq
                  rcases List.mem_append.mp hq with h | h
                  · exact hsq2 q h
                  · obtain ⟨z, hz, hzq⟩ := List.mem_map.mp (hps ▸ h)
                    have hz2 := (List.mem_filter.mp hz).1
                    rw [← hzq]
                    exact adj_ball g.edges start hpball hz2
                · rw [if_neg hdlt] at hq
                  exact hsq2 q hq)
              (by
                intro x hx
                rcases List.mem_append.mp hx with h | h
                · exact hsV x h
                · have : x = p.1 := by simpa using h
                  exact this ▸ mem_ball_mono g.edges start hdD hpball)
              (by
                intro z hz
                rcases hcov z hz with h | h
                · exact Or.inl (List.mem_append_left _ h)
                · simp only [List.map_cons, List.mem_cons] at h
                  rcases h with h | h
                  · exact Or.inl (List.mem_append_right _ (by simp [h]))
                  · exact Or.inr h)
              (by
                intro hdlt y hy z hz
                rcases List.mem_append.mp hy with hyV | hyx
                · rcases hclos hdlt y hyV z hz with h | h
                  · exact Or.inl (List.mem_append_left _ h)
                  · rw [hqshape] at h
                    simp only [List.map_cons, List.mem_cons] at h
                    rcases h with h | h
                    · exact Or.inl (List.mem_append_right _ (by simp [h]))
                    · refine Or.inr ?_
                      rw [List.map_append] at h ⊢
                      rcases List.mem_append.mp h with h2 | h2
                      · exact List.mem_append_left _ h2
                      · refine List.mem_append_right _ ?_
                        rw [hqnew2, if_pos hdlt, List.map_append]
                        exact List.mem_append_left _ h2
                · have hyp : y = p.1 := by simpa using hyx
                  by_cases hzV : z ∈ Vx
                  · exact Or.inl hzV
                  · refine Or.inr ?_
                    rw [List.map_append]
                    refine List.mem_append_right _ ?_
                    rw [hqnew2, if_pos hdlt, List.map_append]
                    refine List.mem_append_right _ ?_
                    rw [hps, List.map_map]
                    have hzf : z ∈ (adjacentIds g.edges p.1).filter
                        (fun w => w ∉ Vx) :=
                      List.mem_filter.mpr ⟨hyp ▸ hz, by simpa using hzV⟩
                    exact List.mem_map.mpr ⟨z, hzf, rfl⟩)
              (by
                rw [hVx, List.nodup_append]
                exact ⟨hndV, List.nodup_singleton _,
                  fun a ha hb => hxV ((List.mem_singleton.mp hb) ▸ ha)⟩)
              hRx2
            rw [hqshape, hstep]
            refine ⟨hres2.1, ?_, hres2.2.2.1, hres2.2.2.2⟩
            intro x hx
            rcases hres2.2.1 x hx with h | h
            · rcases List.mem_append.mp h with h2 | h2
              · exact Or.inl h2
              · have : x = p.1 := by simpa using h2
                exact Or.inr (this ▸ mem_ball_mono g.edges start hdD hpball)
            · exact Or.inr h

theorem nodeHit_some (g : GraphSQL) (tf : Option (List NodeType))
    (id : String) (n : GraphNode) (h : nodeHit g tf id = some n) :
    g.findNode id = some n ∧ typeOk tf n.type = true ∧ n.id = id := by
  unfold nodeHit at h
  cases hfn : g.findNode id with
  | none => rw [hfn] at h; exact absurd h (by simp)
  | some m =>
      rw [hfn] at h
      have h2 : (if typeOk tf m.type = true then some m else none) = some n := h
      by_cases ht : typeOk tf m.type = true
      · rw [if_pos ht] at h2
        have hm : m = n := Option.some_inj.mp h2
        subst hm
        refine ⟨rfl, ht, ?_⟩
        have := List.find?_some hfn
        exact of_decide_eq_true this
      · rw [if_neg ht] at h2
        exact absurd h2 (by simp)

/-- Full characterisation of the SQLite (BFS) `traverse`: a node is returned
iff it is stored, passes the filter, and its id lies within graph distance
`depth` of the start; each node is returned at most once. -/
theorem traverse_bfs_char (g : GraphSQL) (s : String) (D : ℕ)
    (tf : Option (List NodeType)) :
    (∀ n, n ∈ g.traverse s D tf ↔
      n.id ∈ ball g.edges s D ∧ g.findNode n.id = some n ∧
        typeOk tf n.type = true) ∧ (g.traverse s D tf).Nodup := by
  have hfuel0 : ([((s : String), (0 : ℕ))] ++ []).length +
      ((idUniverse g s).filter
        (fun u => u ∉ ([] : List String))).length * (1 + g.edges.length) ≤
      bfsFuel g s := by
    have hfe : (idUniverse g s).filter (fun u => u ∉ ([] : List String)) =
        idUniverse g s := by simp
    rw [hfe, bfsFuel]
    have : (1 + (idUniverse g s).length) * (1 + g.edges.length) =
        (1 + g.edges.length) + (idUniverse g s).length *
          (1 + g.edges.length) := by ring
    rw [this]
    generalize (idUniverse g s).length * (1 + g.edges.length) = A
    simp
    try omega
  have hmain := bfs_main g D tf s (bfsFuel g s * (D + 2) + D) (bfsFuel g s)
    [] [] [(s, 0)] [] 0 (by simp) hfuel0
    (by intro p hp; simp at hp; rw [hp])
    (by simp) (Nat.zero_le D) (by simp)
    (by
      intro p hp
      simp only [List.append_nil, List.mem_singleton] at hp
      rw [hp, idUniverse]
      simp)
    (by
      intro p hp
      simp only [List.mem_singleton] at hp
      rw [hp]
      exact start_mem_ball g.edges s 0)
    (by simp) (by simp)
    (by
      intro z hz
      simp only [ball, List.mem_singleton] at hz
      simp [hz])
    (by simp) List.nodup_nil (by simp)
  have htr : g.traverse s D tf =
      (bfsAux g D tf (bfsFuel g s) ([], [], [(s, 0)])).2 := rfl
  have hq : ([((s : String), (0 : ℕ))] ++ []) = [(s, 0)] := rfl
  rw [hq] at hmain
  obtain ⟨hball, hsub, hnd, hres⟩ := hmain
  constructor
  · intro n
    rw [htr, hres]
    constructor
    · intro hn
      obtain ⟨id, hid, hhit⟩ := List.mem_filterMap.mp hn
      obtain ⟨hfn, ht, hnid⟩ := nodeHit_some g tf id n hhit
      have hid2 : id ∈ ball g.edges s D := by
        rcases hsub id hid with h | h
        · simp at h
        · exact h
      exact ⟨hnid ▸ hid2, hnid ▸ hfn, ht⟩
    · rintro ⟨hb, hfn, ht⟩
      refine List.mem_filterMap.mpr ⟨n.id, hball n.id hb, ?_⟩
      unfold nodeHit
      rw [hfn]
      show (if typeOk tf n.type = true then some n else none) = some n
      rw [if_pos ht]
  · rw [htr, hres]
    refine List.Nodup.filterMap ?_ hnd
    intro a a' b hb hb'
    have h1 := nodeHit_some g tf a b (by simpa using hb)
    have h2 := nodeHit_some g tf a' b (by simpa using hb')
    rw [← h1.2.2, ← h2.2.2]

/-- Soundness of the in-memory (DFS) `traverse`: every returned node is
within distance `depth`, stored, passes the filter, and the visited-set
guard yields termination and no duplicates — but the converse FAILS (see
`dfs_misses_nearby_node`): the DFS can cut off a node within `depth`
because a deeper path visited its only gateway first. -/
theorem dfs_main (g : GraphIM) (tf : Option (List NodeType)) (s : String)
    (D : ℕ) :
    ∀ fuel : ℕ, fuel ≤ D + 1 →
      ∀ (x : String) (V : List String) (R : List GraphNode),
        x ∈ ball g.edges s (D + 1 - fuel) →
        (∀ y ∈ V, y ∈ ball g.edges s D) →
        V.Nodup →
        R = V.filterMap (nodeHitIM g tf) →
        (∀ y ∈ (dfsAux g tf fuel x (V, R)).1,
          y ∈ V ∨ y ∈ ball g.edges s D) ∧
        (dfsAux g tf fuel x (V, R)).1.Nodup ∧
        (dfsAux g tf fuel x (V, R)).2 =
          (dfsAux g tf fuel x (V, R)).1.filterMap (nodeHitIM g tf) ∧
        (∀ y ∈ V, y ∈ (dfsAux g tf fuel x (V, R)).1) := by
  intro fuel
  induction fuel with
  | zero =>
      intro _ x V R _ _ hnd hres
      exact ⟨fun y hy => Or.inl hy, hnd, hres, fun y hy => hy⟩
  | succ f ihf =>
      intro hfle x V R hx hV hnd hres
      have hxD : x ∈ ball g.edges s D := by
        refine mem_ball_mono g.edges s ?_ hx
        omega
      by_cases hxV : x ∈ V
      · rw [dfsAux, if_pos hxV]
        exact ⟨fun y hy => Or.inl hy, hnd, hres, fun y hy => hy⟩
      · rw [dfsAux, if_neg hxV]
        have harith : D + 1 - f = (D + 1 - (f + 1)) + 1 := by omega
        have hfold : ∀ (l : List String),
            (∀ z ∈ l, z ∈ ball g.edges s (D + 1 - f)) →
            ∀ (W : List String) (S : List GraphNode),
              (∀ y ∈ W, y ∈ ball g.edges s D) → W.Nodup →
              S = W.filterMap (nodeHitIM g tf) →
              (∀ y ∈ (l.foldl (fun st next => dfsAux g tf f next st)
                  (W, S)).1, y ∈ W ∨ y ∈ ball g.edges s D) ∧
              (l.foldl (fun st next => dfsAux g tf f next st) (W, S)).1.Nodup ∧
              (l.foldl (fun st next => dfsAux g tf f next st) (W, S)).2 =
                (l.foldl (fun st next => dfsAux g tf f next st)
                  (W, S)).1.filterMap (nodeHitIM g tf) ∧
              (∀ y ∈ W, y ∈ (l.foldl
                (fun st next => dfsAux g tf f next st) (W, S)).1) := by
          intro l
          induction l with
          | nil =>
              intro _ W S hW hndW hS
              exact ⟨fun y hy => Or.inl hy, hndW, hS, fun y hy => hy⟩
          | cons z l ihl =>
              intro hzball W S hW hndW hS
              rw [List.foldl_cons]
              have hz := ihf (by omega) z W S
                (hzball z (List.mem_cons_self z l)) hW hndW hS
              have hWball : ∀ y ∈ (dfsAux g tf f z (W, S)).1,
                  y ∈ ball g.edges s D := by
                intro y hy
                rcases hz.1 y hy with h | h
                · exact hW y h
                · exact h
              have hrest := ihl
                (fun w hw => hzball w (List.mem_cons_of_mem z hw))
                (dfsAux g tf f z (W, S)).1 (dfsAux g tf f z (W, S)).2
                hWball hz.2.1 hz.2.2.1
              refine ⟨?_, hrest.2.1, hrest.2.2.1, ?_⟩
              · intro y hy
                rcases hrest.1 y hy with h | h
                · rcases hz.1 y h with h2 | h2
                  · exact Or.inl h2
                  · exact Or.inr h2
                · exact Or.inr h
              · intro y hy
                exact hrest.2.2.2 y (hz.2.2.2 y hy)
        have hRx : (match alookup g.nodes x with
            | some n => if typeOk tf n.type then R ++ [n] else R
            | none => R) = (V ++ [x]).filterMap (nodeHitIM g tf) := by
          rw [filterMap_snoc, ← hres]
          cases hfn : alookup g.nodes x with
          | some n =>
              by_cases ht : typeOk tf n.type = true
              · simp [nodeHitIM, hfn, ht]
              · simp [nodeHitIM, hfn, ht]
          | none => simp [nodeHitIM, hfn]
        have hmain := hfold (adjacentIds g.edges x)
          (by
            intro z hz
            rw [harith]
            exact adj_ball g.edges s hx hz)
          (V ++ [x])
          (match alookup g.nodes x with
           | some n => if typeOk tf n.type then R ++ [n] else R
           | none => R)
          (by
            intro y hy
            rcases List.mem_append.mp hy with h | h
            · exact hV y h
            · have : y = x := by simpa using h
              exact this ▸ hxD)
          (by
            rw [List.nodup_append]
            exact ⟨hnd, List.nodup_singleton _,
              fun a ha hb => hxV ((List.mem_singleton.mp hb) ▸ ha)⟩)
          hRx
        refine ⟨?_, hmain.2.1, hmain.2.2.1, ?_⟩
        · intro y hy
          rcases hmain.1 y hy with h | h
          · rcases List.mem_append.mp h with h2 | h2
            · exact Or.inl h2
            · have : y = x := by simpa using h2
              exact Or.inr (this ▸ hxD)
          · exact Or.inr h
        · intro y hy
          exact hmain.2.2.2 y (List.mem_append_left _ hy)

theorem alookup_mem {α : Type} (m : List (String × α)) (k : String) (v : α)
    (h : alookup m k = some v) : (k, v) ∈ m := by
  induction m with
  | nil => simp [alookup] at h
  | cons p m ih =>
      by_cases hp : p.1 = k
      · rw [alookup, if_pos hp] at h
        have hv : p.2 = v := Option.some_inj.mp h
        have hkv : (k, v) = p := by rw [← hp, ← hv]
        rw [hkv]
        exact List.mem_cons_self p m
      · rw [alookup, if_neg hp] at h
        exact List.mem_cons_of_mem p (ih h)

/-- Soundness of the in-memory DFS `traverse` for well-formed stores (node
map keys equal node ids). -/
theorem traverse_dfs_sound (g : GraphIM) (s : String) (D : ℕ)
    (tf : Option (List NodeType))
    (hwf : ∀ p ∈ g.nodes, p.2.id = p.1) :
    (g.traverse s D tf).Nodup ∧
    ∀ n ∈ g.traverse s D tf,
      n.id ∈ ball g.edges s D ∧ alookup g.nodes n.id = some n ∧
        typeOk tf n.type = true := by
  have hball0 : s ∈ ball g.edges s (D + 1 - (D + 1)) := by
    have : D + 1 - (D + 1) = 0 := by omega
    rw [this]
    exact start_mem_ball g.edges s 0
  have hmain := dfs_main g tf s D (D + 1) le_rfl s [] [] hball0
    (by simp) List.nodup_nil (by simp)
  have htr : g.traverse s D tf =
      (dfsAux g tf (D + 1) s ([], [])).2 := rfl
  have hhit : ∀ (id : String) (n : GraphNode),
      nodeHitIM g tf id = some n →
      alookup g.nodes id = some n ∧ typeOk tf n.type = true ∧ n.id = id := by
    intro id n h
    unfold nodeHitIM at h
    cases hfn : alookup g.nodes id with
    | none => rw [hfn] at h; exact absurd h (by simp)
    | some m =>
        rw [hfn] at h
        have h2 : (if typeOk tf m.type = true then some m else none) =
            some n := h
        by_cases ht : typeOk tf m.type = true
        · rw [if_pos ht] at h2
          have hm : m = n := Option.some_inj.mp h2
          subst hm
          exact ⟨rfl, ht, hwf (id, m) (alookup_mem g.nodes id m hfn)⟩
        · rw [if_neg ht] at h2
          exact absurd h2 (by simp)
  constructor
  · rw [htr, hmain.2.2.1]
    refine List.Nodup.filterMap ?_ hmain.2.1
    intro a a' b hb hb'
    have h1 := hhit a b (by simpa using hb)
    have h2 := hhit a' b (by simpa using hb')
    rw [← h1.2.2, ← h2.2.2]
  · intro n hn
    rw [htr, hmain.2.2.1] at hn
    obtain ⟨id, hid, hhit2⟩ := List.mem_filterMap.mp hn
    obtain ⟨hfn, ht, hnid⟩ := hhit id n hhit2
    have hid2 : id ∈ ball g.edges s D := by
      rcases hmain.1 id hid with h | h
      · simp at h
      · exact h
    exact ⟨hnid ▸ hid2, hnid ▸ hfn, ht⟩

/-- C3 (corrected).  Both traversals terminate (they are total functions
with a visited-set guard) and return each node at most once; both return
only nodes that exist in the store, pass the type filter, and lie within
shortest-path distance `depth` of the start.  The SQLite BFS `traverse`
returns EXACTLY the nodes satisfying those conditions; the in-memory DFS
`traverse`, however, can OMIT a node within `depth`, because the
depth-bounded recursion may first reach a hub node along a longer path and
the visited-set guard then blocks the shorter one (see
`dfs_misses_nearby_node`). -/
theorem traverse_depth_semantics :
    (∀ (g : GraphSQL) (s : String) (D : ℕ) (tf : Option (List NodeType)),
      (∀ n, n ∈ g.traverse s D tf ↔
        n.id ∈ ball g.edges s D ∧ g.findNode n.id = some n ∧
          typeOk tf n.type = true) ∧ (g.traverse s D tf).Nodup) ∧
    (∀ (g : GraphIM) (s : String) (D : ℕ) (tf : Option (List NodeType)),
      (∀ p ∈ g.nodes, p.2.id = p.1) →
      (g.traverse s D tf).Nodup ∧
      ∀ n ∈ g.traverse s D tf,
        n.id ∈ ball g.edges s D ∧ alookup g.nodes n.id = some n ∧
          typeOk tf n.type = true) :=
  ⟨fun g s D tf => traverse_bfs_char g s D tf,
    fun g s D tf hwf => traverse_dfs_sound g s D tf hwf⟩

/-- C3 witness: the characterisations at the concrete diamond graph. -/
theorem traverse_depth_semantics_witness :
    ((mkNode "C" .Decision "c" 3) ∈ gSql.traverse "S" 2 none ↔
      ("C" ∈ ball gSql.edges "S" 2 ∧
        gSql.findNode "C" = some (mkNode "C" .Decision "c" 3) ∧
        typeOk none (NodeType.Decision) = true)) ∧
    (gDfs.traverse "S" 2 none).Nodup :=
  ⟨((traverse_depth_semantics.1 gSql "S" 2 none).1 (mkNode "C" .Decision "c" 3)),
    (traverse_depth_semantics.2 gDfs "S" 2 none (by decide)).1⟩

/-- C3 counterexample.  In the graph `S—A, A—B, B—C, S—B`, node `C` is at
distance 2 from `S` and exists in the store, and no type filter is given;
yet the in-memory DFS `traverse("S", 2)` returns only `S, A, B` — `B` is
first reached at depth 2 through `A`, so its expansion stops and the later
arrival through the short path `S—B` is blocked by the visited set.  The
BFS `traverse` on the same graph does return `C`, so the visited-set order
DOES change the observable result. -/
theorem dfs_misses_nearby_node :
    "C" ∈ ball gDfs.edges "S" 2 ∧
    alookup gDfs.nodes "C" = some (mkNode "C" .Decision "c" 3) ∧
    (gDfs.traverse "S" 2 none).map (·.id) = ["S", "A", "B"] ∧
    (mkNode "C" .Decision "c" 3) ∉ gDfs.traverse "S" 2 none ∧
    (mkNode "C" .Decision "c" 3) ∈ gSql.traverse "S" 2 none :=
  ⟨by decide, by decide, by decide, by decide, by decide⟩

/-! ## C10: read operations do not mutate the stores -/

/-- C10 (confirmed).  Every read operation of the retrieval engine —
`traverse` (both generations), `nodes_by_type`, `intents`, `decisions`,
vector `search` and `retrieve` — leaves the stores exactly as they were:
their translations only read the state, matching the TS methods, which
contain no assignment to the stores. -/
theorem reads_are_pure :
    ∀ (st : Stores) (g : GraphSQL) (p : Provider) (q : String) (k : ℕ)
      (b : ℚ) (sid : String) (d : ℕ) (tf : Option (List NodeType))
      (t : NodeType),
      (traverseOp sid d tf st).1 = st ∧
      (nodesByTypeOp t st).1 = st ∧
      (intentsOp st).1 = st ∧
      (decisionsOp st).1 = st ∧
      (vsearchOp p q k st).1 = st ∧
      (retrieveOp p q b st).1 = st ∧
      (sqlTraverseOp sid d tf g).1 = g :=
  fun _ _ _ _ _ _ _ _ _ _ => ⟨rfl, rfl, rfl, rfl, rfl, rfl, rfl⟩

end NorthStar
